import Mathlib

/-!
Shallow embedding of the Shiftago-Qt core (src/shiftago/core) in Lean 4,
together with theorems settling the claims about it.

Conventions of the embedding:
* machine integers are `Nat`/`Int` (all relevant quantities are tiny);
* a board is a total function from coordinates to `Option Colour`; only the
  49 on-board slots (coordinates in [0,7)) are ever read or written by the
  embedded operations;
* Python `assert`/exception paths are modelled with `Option`: `none` means
  the corresponding Python call raises;
* the floating-point heuristic values of the AI are modelled exactly as
  rationals (the values are signed sums of powers of ten).
-/

namespace Shiftago

/-- NUM_SLOTS_PER_SIDE in shiftago/core/__init__.py. -/
def NUM_SLOTS_PER_SIDE : Nat := 7

/-- NUM_MARBLES_PER_COLOUR in shiftago/core/__init__.py. -/
def NUM_MARBLES_PER_COLOUR : Nat := 22

/-- Colour enum (shiftago/core/__init__.py): BLUE, GREEN, ORANGE. -/
inductive Colour where
  | blue
  | green
  | orange
deriving DecidableEq, Repr

/-- Side enum (shiftago/core/__init__.py): LEFT, RIGHT, TOP, BOTTOM. -/
inductive Side where
  | left
  | right
  | top
  | bottom
deriving DecidableEq, Repr

namespace Side

/-- Side._position: LEFT 0, RIGHT 6, TOP 0, BOTTOM 6. -/
def position : Side → Nat
  | .left => 0
  | .right => NUM_SLOTS_PER_SIDE - 1
  | .top => 0
  | .bottom => NUM_SLOTS_PER_SIDE - 1

/-- Side._is_horizontal: LEFT/RIGHT False, TOP/BOTTOM True. -/
def is_horizontal : Side → Bool
  | .left => false
  | .right => false
  | .top => true
  | .bottom => true

/-- Side.is_vertical = not is_horizontal. -/
def is_vertical (s : Side) : Bool := !s.is_horizontal

/-- Side._shift_direction: LEFT/TOP 1, RIGHT/BOTTOM -1. -/
def shift_direction : Side → Int
  | .left => 1
  | .right => -1
  | .top => 1
  | .bottom => -1

/-- Side.opposite: LEFT-RIGHT and TOP-BOTTOM swap. -/
def opposite : Side → Side
  | .left => .right
  | .right => .left
  | .top => .bottom
  | .bottom => .top

end Side

/-- Slot is a (hor_pos, ver_pos) coordinate pair (a namedtuple in the source;
the global interning cache is a performance artifact with no semantics). -/
abbrev Slot := Nat × Nat

/-- The occupancy map `self._board : Dict[Slot, Colour]`, as a total function;
`none` means the slot is absent from the dict (unoccupied). -/
abbrev Board := Slot → Option Colour

/-- LineOrientation enum. -/
inductive LineOrientation where
  | horizontal
  | vertical
  | ascending
  | descending
deriving DecidableEq, Repr

/-- LineOrientation.to_neighbour: the next slot one step along the line.
`ascending` decreases ver_pos (Nat subtraction; the generated catalog never
steps below 0, see the C6 theorem). -/
def LineOrientation.to_neighbour : LineOrientation → Slot → Slot
  | .horizontal, (h, v) => (h + 1, v)
  | .vertical, (h, v) => (h, v + 1)
  | .ascending, (h, v) => (h + 1, v - 1)
  | .descending, (h, v) => (h + 1, v + 1)

/-- SlotsInLine: a line with its generating orientation and its ordered slots.
Python `__eq__`/`__hash__` use only the slots tuple; in the generated catalog
the slot lists are already pairwise distinct (see the C6 theorem). -/
structure SlotsInLine where
  line_or : LineOrientation
  slots : List Slot
deriving DecidableEq, Repr

/-- The generator inside SlotsInLine.__init__: yields start_slot and then
num_slots - 1 successive to_neighbour steps. -/
def generate_line (o : LineOrientation) (num_slots : Nat) (start : Slot) : List Slot :=
  (List.range num_slots).map (fun k => (o.to_neighbour)^[k] start)

/-- add_all_sub_lines inside SlotsInLine.get_all: the k-th window starts at the
k-th to_neighbour iterate of start_slot. -/
def add_all_sub_lines (o : LineOrientation) (line_length : Nat) (start : Slot)
    (board_line_length : Nat) : List SlotsInLine :=
  (List.range (board_line_length - line_length + 1)).map
    (fun k => ⟨o, generate_line o line_length ((o.to_neighbour)^[k] start)⟩)

/-- SlotsInLine.get_all: all lines of the given length, in generation order.
Python collects them in a set; generation produces no duplicates (the C6
theorem proves the list Nodup), so a list is a faithful model. -/
def get_all (line_length : Nat) : List SlotsInLine :=
  let n := NUM_SLOTS_PER_SIDE
  let diag_from_left_column := fun (o : LineOrientation) =>
    (List.range (n - line_length + 1)).flatMap (fun off =>
      add_all_sub_lines o line_length
        (0, if o = .descending then off else n - 1 - off) (n - off))
  let diag_from_row := fun (o : LineOrientation) =>
    ((List.range (n - line_length)).map (· + 1)).flatMap (fun off =>
      add_all_sub_lines o line_length
        (off, if o = .descending then 0 else n - 1) (n - off))
  ((List.range n).flatMap (fun off => add_all_sub_lines .horizontal line_length (0, off) n)) ++
  ((List.range n).flatMap (fun off => add_all_sub_lines .vertical line_length (off, 0) n)) ++
  (diag_from_left_column .descending ++ diag_from_row .descending) ++
  (diag_from_left_column .ascending ++ diag_from_row .ascending)

/-- Shiftago.slots(): all slots in yield order (ver_pos outer, hor_pos inner). -/
def all_slots : List Slot :=
  (List.range NUM_SLOTS_PER_SIDE).flatMap
    (fun v => (List.range NUM_SLOTS_PER_SIDE).map (fun h => (h, v)))

/-- Shiftago.colour_at. -/
def colour_at (b : Board) (s : Slot) : Option Colour := b s

/-- Shiftago.count_occupied_slots: len(self._board), i.e. the number of
occupied slots. -/
def count_occupied_slots (b : Board) : Nat :=
  (all_slots.filter (fun s => (b s).isSome)).length

/-- The per-colour entry of Shiftago.count_slots_per_colour: the number of
board slots holding the given colour. -/
def count_colour (b : Board) (c : Colour) : Nat :=
  (all_slots.filter (fun s => b s = some c)).length

/-- Shiftago.count_slots_per_colour: a dict keyed by the game's colours.
(The Python increment `slots_per_colour[c] += 1` assumes every board colour
is one of the game's colours; boards violating that raise KeyError, which the
theorems exclude by a well-formedness hypothesis.) -/
def count_slots_per_colour (b : Board) (colours : List Colour) : List (Colour × Nat) :=
  colours.map (fun c => (c, count_colour b c))

/-- Shiftago.find_first_empty_slot: scan the targeted column (vertical sides)
or row (horizontal sides); LEFT/TOP scan coordinates 0,1,...,6, RIGHT/BOTTOM
scan 6,5,...,0; return the first empty slot, else None. -/
def find_first_empty_slot (b : Board) (side : Side) (insert_pos : Nat) : Option Slot :=
  if side.is_vertical then
    ((if side = .left then List.range NUM_SLOTS_PER_SIDE
      else (List.range NUM_SLOTS_PER_SIDE).reverse).find?
        (fun hor => (b (hor, insert_pos)).isNone)).map (fun hor => (hor, insert_pos))
  else
    ((if side = .top then List.range NUM_SLOTS_PER_SIDE
      else (List.range NUM_SLOTS_PER_SIDE).reverse).find?
        (fun ver => (b (insert_pos, ver)).isNone)).map (fun ver => (insert_pos, ver))

/-- Shiftago.detect_all_possible_moves: for each column with TOP open, both
(TOP, col) and (BOTTOM, col); for each row with LEFT open, both (LEFT, row)
and (RIGHT, row); in source order. -/
structure Move where
  side : Side
  position : Nat
deriving DecidableEq, Repr

/-- The observer callbacks of MoveObserver, reified as an event trace:
notify_marble_shifted(slot, direction) and notify_marble_inserted(slot). -/
inductive MoveEvent where
  | shifted (slot : Slot) (direction : Side)
  | inserted (slot : Slot)
deriving DecidableEq, Repr

/-- GameOverCondition: an optional winner; winner = none is a draw. -/
structure GameOverCondition where
  winner : Option Colour
deriving DecidableEq, Repr

def detect_all_possible_moves (b : Board) : List Move :=
  ((List.range NUM_SLOTS_PER_SIDE).flatMap (fun hor =>
    if (find_first_empty_slot b .top hor).isSome then
      [⟨.top, hor⟩, ⟨.bottom, hor⟩] else [])) ++
  ((List.range NUM_SLOTS_PER_SIDE).flatMap (fun ver =>
    if (find_first_empty_slot b .left ver).isSome then
      [⟨.left, ver⟩, ⟨.right, ver⟩] else []))

/-- Python `range(start, stop, step)` for the two step values used by
`_insert_marble` (step is -shift_direction, so +1 or -1). -/
def py_range_step (start stop : Nat) (step : Int) : List Nat :=
  if step = -1 then (List.range (start - stop)).map (fun k => start - k)
  else (List.range (stop - start)).map (fun k => start + k)

/-- One iteration of the shift loop in Shiftago._insert_marble, for a
vertical side (the row/column coordinate `x` is the one being written):
read the neighbouring occupied slot (colour_of_occupied_slot raises -
modelled as `none` - if it is empty), copy its colour and emit a shifted
event with direction side.opposite. -/
def shift_step_ver (side : Side) (position : Nat) (acc : Board × List MoveEvent)
    (hor_pos : Nat) : Option (Board × List MoveEvent) := do
  let occupied : Slot := (((hor_pos : Int) - side.shift_direction).toNat, position)
  let c ← acc.1 occupied
  pure (Function.update acc.1 (hor_pos, position) (some c),
        acc.2 ++ [.shifted occupied side.opposite])

/-- One iteration of the shift loop in Shiftago._insert_marble, for a
horizontal side. -/
def shift_step_hor (side : Side) (position : Nat) (acc : Board × List MoveEvent)
    (ver_pos : Nat) : Option (Board × List MoveEvent) := do
  let occupied : Slot := (position, ((ver_pos : Int) - side.shift_direction).toNat)
  let c ← acc.1 occupied
  pure (Function.update acc.1 (position, ver_pos) (some c),
        acc.2 ++ [.shifted occupied side.opposite])

/-- Shiftago._insert_marble: find the first empty slot (the Python assert
"No empty slot!" is modelled as `none`), walk from it back toward the
insertion edge copying each neighbour one slot outward and emitting a
shifted event, then place the mover's colour on the edge slot and emit the
inserted event. -/
def insert_marble (b : Board) (side : Side) (position : Nat) (mover : Colour) :
    Option (Board × List MoveEvent) := do
  let first_empty ← find_first_empty_slot b side position
  if side.is_vertical then
    let xs := py_range_step first_empty.1 side.position (-side.shift_direction)
    let (b1, evs) ← xs.foldlM (shift_step_ver side position) (b, [])
    let insert_slot : Slot := (side.position, position)
    pure (Function.update b1 insert_slot (some mover), evs ++ [.inserted insert_slot])
  else
    let xs := py_range_step first_empty.2 side.position (-side.shift_direction)
    let (b1, evs) ← xs.foldlM (shift_step_hor side position) (b, [])
    let insert_slot : Slot := (position, side.position)
    pure (Function.update b1 insert_slot (some mover), evs ++ [.inserted insert_slot])

/-- WinningLinesDetector._build_match_degrees, per line: the Python code
walks the occupied slots and increments, through the slot_to_lines reverse
index, a defaultdict counter for every line through each slot of the given
colour; the resulting count of a line is exactly the number of its slots
holding that colour. -/
def match_degree (b : Board) (c : Colour) (ln : SlotsInLine) : Nat :=
  (ln.slots.filter (fun s => b s = some c)).length

/-- WinningLinesDetector.has_winning_line: some line of the catalog has
match degree equal to the winning match degree. (Lines absent from the
Python defaultdict have degree 0 < line_length, so iterating the dict values
and iterating the whole catalog agree.) -/
def has_winning_line (line_length : Nat) (b : Board) (c : Colour) : Bool :=
  (get_all line_length).any (fun ln => match_degree b c ln == line_length)

/-- ShiftagoExpress._select_winning_lines_detector: 4-lines for 3-4 players,
5-lines otherwise (i.e. for 2 players). -/
def select_winning_line_length (colours : List Colour) : Nat :=
  if 3 ≤ colours.length ∧ colours.length ≤ 4 then 4 else 5

/-- The mutable state of a ShiftagoExpress instance: colour rotation (head =
colour to move), occupancy map, the configured winning line length (fixed at
construction from the number of colours), and the game-over condition. -/
structure GameState where
  colours : List Colour
  board : Board
  winning_line_length : Nat
  game_over_condition : Option GameOverCondition

/-- ShiftagoExpress.apply_move. `none` models the Python assertion
"Game is already over!" (and the impossible no-empty-slot assert inside
_insert_marble). Returns the successor state together with the emitted
observer events; the Python return value is the successor's
game_over_condition field. -/
def apply_move (s : GameState) (m : Move) : Option (GameState × List MoveEvent) :=
  if s.game_over_condition.isSome then none
  else do
    let colour_to_move ← s.colours.head?
    let (b1, evs) ← insert_marble s.board m.side m.position colour_to_move
    if has_winning_line s.winning_line_length b1 colour_to_move then
      pure ({ s with
                board := b1,
                game_over_condition := some ⟨some colour_to_move⟩ }, evs)
    else
      let num_slots_per_colour := count_slots_per_colour b1 s.colours
      if (num_slots_per_colour.map (·.2)).sum <
          NUM_SLOTS_PER_SIDE * NUM_SLOTS_PER_SIDE then
        do
          let next_colour ← s.colours[1]?
          if count_colour b1 next_colour = NUM_MARBLES_PER_COLOUR then
            pure ({ s with board := b1, game_over_condition := some ⟨none⟩ }, evs)
          else
            pure ({ s with board := b1, colours := s.colours.rotate 1 }, evs)
      else
        pure ({ s with board := b1, game_over_condition := some ⟨none⟩ }, evs)

/-! ### The computer opponent (shiftago/core/express_ai.py) -/

/-- SkillLevel enum with its ordinal values. -/
inductive SkillLevel where
  | rookie
  | advanced
  | expert
  | grandmaster
deriving DecidableEq, Repr

/-- SkillLevel.value: ROOKIE 0, ADVANCED 1, EXPERT 2, GRANDMASTER 3. -/
def SkillLevel.value : SkillLevel → Nat
  | .rookie => 0
  | .advanced => 1
  | .expert => 2
  | .grandmaster => 3

/-- AlphaBetaPruning.__init__: self._max_depth = 2 + skill_level.value. -/
def max_depth_of (skill : SkillLevel) : Nat := 2 + skill.value

/-- The entry of the analyze_colour_placements histogram for one player:
how many catalog lines have exactly the given match degree. The Python
histogram is built from detect_winning_lines(2), which keeps only lines of
degree >= 2, and the search reads entries only at keys 2..line_length, where
the two agree (missing keys default to 0). -/
def count_lines_with_degree (line_length : Nat) (b : Board) (c : Colour) (k : Nat) : Nat :=
  ((get_all line_length).filter (fun ln => match_degree b c ln == k)).length

/-- Rational addition, computing the same value as `a + b`
(see qadd_eq_add); written out because the Batteries arithmetic on `Rat` is
marked irreducible, which would block kernel evaluation of the search. -/
def qadd (a b : ℚ) : ℚ := mkRat (a.num * b.den + b.num * a.den) (a.den * b.den)

/-- Rational subtraction, computing the same value as `a - b`. -/
def qsub (a b : ℚ) : ℚ := mkRat (a.num * b.den - b.num * a.den) (a.den * b.den)

/-- Rational multiplication, computing the same value as `a * b`. -/
def qmul (a b : ℚ) : ℚ := mkRat (a.num * b.num) (a.den * b.den)

theorem qadd_eq_add (a b : ℚ) : qadd a b = a + b := by
  rw [Rat.add_def]
  simp [qadd, Rat.mkRat_def, Nat.mul_ne_zero a.den_nz b.den_nz]

theorem qsub_eq_sub (a b : ℚ) : qsub a b = a - b := by
  rw [Rat.sub_def]
  simp [qsub, Rat.mkRat_def, Nat.mul_ne_zero a.den_nz b.den_nz]

theorem qmul_eq_mul (a b : ℚ) : qmul a b = a * b := by
  rw [Rat.mul_def]
  simp [qmul, Rat.mkRat_def, Nat.mul_ne_zero a.den_nz b.den_nz]

/-- `Rat.blt` decides the strict order on ℚ (the order on `Rat` is defined
as `Rat.blt` in Batteries). -/
theorem blt_iff_lt (a b : ℚ) : Rat.blt a b = true ↔ a < b := Iff.rfl

/-- _Rating: the value (a float in Python, modelled exactly as a rational)
and the depth at which it was determined. -/
structure Rating where
  value : ℚ
  depth : Nat
deriving DecidableEq, Repr

/-- The alpha/beta bounds: rationals extended with -math.inf / math.inf. -/
inductive XQ where
  | neg_inf
  | fin (q : ℚ)
  | pos_inf
deriving DecidableEq, Repr

namespace XQ

/-- The order on alpha/beta bounds. -/
def le : XQ → XQ → Bool
  | .neg_inf, _ => true
  | _, .pos_inf => true
  | .fin p, .fin q => !Rat.blt q p
  | .pos_inf, .fin _ => false
  | .pos_inf, .neg_inf => false
  | .fin _, .neg_inf => false

/-- max, as used in `self._alpha = max(self._alpha, value)`. -/
def max (a b : XQ) : XQ := if le a b then b else a

/-- min, as used in `self._beta = min(self._beta, value)`. -/
def min (a b : XQ) : XQ := if le a b then a else b

end XQ

/-- _Node: the move and the game state reached by applying it on a copy.
(_Node construction runs apply_move; in the search this never fails because
the moves come from detect_all_possible_moves on a non-terminal state.) -/
structure Node where
  move : Move
  target : GameState

/-- _Node.is_leaf: the move ended the game. -/
def Node.is_leaf (n : Node) : Bool := n.target.game_over_condition.isSome

/-- _MiniMaxStrategy.__init__: win rating value +1 for the maximizer,
-1 for the minimizer. -/
def win_rating_value (is_maximizing : Bool) : ℚ := if is_maximizing then 1 else -1

/-- _MiniMaxStrategy.evaluate. For a finished game: +-1 on a win, 0 on a
draw. Otherwise the heuristic: the state's colour sequence is destructured
as (opponent, current_player) - after a non-terminal move the rotation has
put the player who just moved at index 1 - and for i from line_length down
to 2 the term (current[i] - opponent[i]) * 10^-(line_length - i + 1) *
win_rating_value is accumulated. math.pow(10, -e) is modelled exactly as
(1/10)^e. -/
def evaluate (is_maximizing : Bool) (n : Node) : ℚ :=
  match n.target.game_over_condition with
  | some goc => if goc.winner.isSome then win_rating_value is_maximizing else 0
  | none =>
    match n.target.colours with
    | opponent :: current_player :: _ =>
      let L := n.target.winning_line_length
      let b := n.target.board
      (List.range (L - 1)).foldl (fun acc j =>
        let i := L - j
        qadd acc (qmul (qmul
          (qsub (mkRat (count_lines_with_degree L b current_player i) 1)
                (mkRat (count_lines_with_degree L b opponent i) 1))
          (mkRat 1 (10 ^ (L - i + 1))))
          (win_rating_value is_maximizing))) 0
    | _ => 0

/-- The mutable fields of a _MiniMaxStrategy during the node loop. -/
structure StratState where
  alpha : XQ
  beta : XQ
  optimal : Option Rating
deriving DecidableEq, Repr

/-- _Maximizer.check_optimal / _Minimizer.check_optimal: returns the updated
strategy state and whether the rating became the new optimum. On a strictly
better value the alpha (resp. beta) bound is tightened; on an equal value the
rating is preferred at smaller depth when it is a winning value, at greater
depth otherwise, without touching the bounds. -/
def check_optimal (is_maximizing : Bool) (st : StratState) (r : Rating) :
    StratState × Bool :=
  match st.optimal with
  | none =>
    if is_maximizing then
      ({ st with optimal := some r, alpha := st.alpha.max (.fin r.value) }, true)
    else
      ({ st with optimal := some r, beta := st.beta.min (.fin r.value) }, true)
  | some opt =>
    if is_maximizing then
      if Rat.blt opt.value r.value then
        ({ st with optimal := some r, alpha := st.alpha.max (.fin r.value) }, true)
      else if r.value == opt.value &&
          (if Rat.blt 0 r.value then r.depth < opt.depth else opt.depth < r.depth) then
        ({ st with optimal := some r }, true)
      else (st, false)
    else
      if Rat.blt r.value opt.value then
        ({ st with optimal := some r, beta := st.beta.min (.fin r.value) }, true)
      else if r.value == opt.value &&
          (if Rat.blt r.value 0 then r.depth < opt.depth else opt.depth < r.depth) then
        ({ st with optimal := some r }, true)
      else (st, false)

/-- _MiniMaxStrategy.can_prune: alpha >= beta. -/
def can_prune (st : StratState) : Bool := st.beta.le st.alpha

/-- Insert `x` into a sorted list, after every element that strictly
precedes it (`lt y x`) and before every tie: the insertion step of a stable
insertion sort. -/
def stable_insert (lt : α → α → Bool) (x : α) : List α → List α
  | [] => [x]
  | y :: ys => if lt y x then y :: stable_insert lt x ys else x :: y :: ys

/-- Stable insertion sort: the unique stable sort for the strict order `lt`
(ties keep their original relative order), hence extensionally the sort
performed by Python's stable `list.sort`. -/
def stable_sort (lt : α → α → Bool) : List α → List α
  | [] => []
  | x :: xs => stable_insert lt x (stable_sort lt xs)

/-- _MiniMaxStrategy.sort_nodes: cache each node's evaluation, then stable
sort by it - descending for the maximizer (Python reverse=True), ascending
for the minimizer. Python's `list.sort` is stable, and with reverse=True
equal keys also keep their original order, so both directions are the
stable sort for the corresponding strict key order. -/
def sort_nodes (is_maximizing : Bool) (nodes : List Node) : List Node :=
  let rated := nodes.map (fun n => (n, evaluate is_maximizing n))
  (stable_sort (fun a b =>
      if is_maximizing then Rat.blt b.2 a.2 else Rat.blt a.2 b.2) rated).map (·.1)

/-- The `for each_node in nodes` loop of AlphaBetaPruning._apply. `recur`
is the recursive call at depth + 1; `is_frontier` is `depth == max_depth`.
A node's rating is its direct evaluation if it is a leaf or the frontier is
reached, else the rating of the recursive search from it with the current
alpha-beta window. When check_optimal accepts the rating the node's move is
recorded, and the loop breaks as soon as can_prune holds. -/
def ab_loop (is_maximizing is_frontier : Bool)
    (recur : GameState → XQ × XQ → Option (Move × Rating)) (depth : Nat) :
    List Node → StratState → Option Move → Option (StratState × Option Move)
  | [], st, best => some (st, best)
  | node :: rest, st, best =>
    match (if node.is_leaf || is_frontier then
        some (⟨evaluate is_maximizing node, depth⟩ : Rating)
      else
        (recur node.target (st.alpha, st.beta)).map (·.2)) with
    | none => none
    | some current_rating =>
      match check_optimal is_maximizing st current_rating with
      | (st1, took) =>
        let best1 := if took then some node.move else best
        if took && can_prune st1 then some (st1, best1)
        else ab_loop is_maximizing is_frontier recur depth rest st1 best1

/-- AlphaBetaPruning._apply. The maximizer plays at odd depths. Children are
built with apply_move on a copy; below the frontier they are pre-sorted by
their one-ply evaluation. `fuel` only feeds the termination checker: the
top-level call passes max_depth so that fuel never reaches 0 before the
frontier (the Python recursion is bounded the same way by
`depth == self._max_depth`). The final asserts (optimal_move / the optimal
rating are not None) are modelled as `none`. -/
def ab_apply (max_depth : Nat) :
    Nat → GameState → Nat → XQ × XQ → Option (Move × Rating)
  | 0, _, _, _ => none
  | fuel + 1, s, depth, ab => do
    let is_maximizing := depth % 2 == 1
    let nodes ← (detect_all_possible_moves s.board).mapM (fun m =>
      (apply_move s m).map (fun p => Node.mk m p.1))
    let nodes := if depth < max_depth then sort_nodes is_maximizing nodes else nodes
    let (st, best) ← ab_loop is_maximizing (depth == max_depth)
      (fun s1 ab1 => ab_apply max_depth fuel s1 (depth + 1) ab1)
      depth nodes ⟨ab.1, ab.2, none⟩ none
    let m ← best
    let opt ← st.optimal
    pure (m, opt)

/-- The deterministic branch of AlphaBetaPruning.select_move (taken whenever
count_occupied_slots > 1): run _apply from depth 1 with the full window.
The other branch picks a uniformly random legal move and is not modelled. -/
def select_move_search (skill : SkillLevel) (s : GameState) : Option (Move × Rating) :=
  ab_apply (max_depth_of skill) (max_depth_of skill) s 1 (.neg_inf, .pos_inf)

/-! ### Proof infrastructure

`rel_slot side p i` is the i-th slot of the line targeted by inserting from
`side` at position `p`, counted from the insertion edge of `side` (distance
i from the edge). It parametrizes the scan order of find_first_empty_slot
and the shift performed by _insert_marble uniformly over the four sides. -/

def rel_slot (side : Side) (p i : Nat) : Slot :=
  match side with
  | .left => (i, p)
  | .right => (6 - i, p)
  | .top => (p, i)
  | .bottom => (p, 6 - i)

/-- `find?` on `List.range' s n` finds the least index in [s, s+n) whose
predicate holds. -/
theorem range'_find?_eq_some {p : Nat → Bool} {s n : Nat} {i : Nat} :
    (List.range' s n).find? p = some i ↔
      s ≤ i ∧ i < s + n ∧ p i = true ∧ ∀ j, s ≤ j → j < i → p j = false := by
  induction n generalizing s with
  | zero =>
    simp only [List.range', List.find?_nil]
    constructor
    · intro h; cases h
    · rintro ⟨h1, h2, _, _⟩; omega
  | succ n ih =>
    rw [List.range'_succ, List.find?_cons]
    rcases hp : p s with _ | _
    · simp only [cond_false, ih]
      constructor
      · rintro ⟨h1, h2, h3, h4⟩
        refine ⟨by omega, by omega, h3, fun j hj1 hj2 => ?_⟩
        rcases Nat.eq_or_lt_of_le hj1 with rfl | hj
        · exact hp
        · exact h4 j hj hj2
      · rintro ⟨h1, h2, h3, h4⟩
        have hsi : s ≠ i := by rintro rfl; rw [hp] at h3; cases h3
        exact ⟨by omega, by omega, h3, fun j hj1 hj2 => h4 j (by omega) hj2⟩
    · simp only [cond_true, Option.some.injEq]
      constructor
      · rintro rfl
        exact ⟨Nat.le_refl s, by omega, hp, fun j hj1 hj2 => absurd (Nat.lt_of_le_of_lt hj1 hj2) (Nat.lt_irrefl s)⟩
      · rintro ⟨h1, h2, h3, h4⟩
        by_contra hne
        have := h4 s (Nat.le_refl s) (by omega)
        rw [hp] at this; cases this

/-- `find?` on `List.range' s n` fails iff the predicate fails throughout. -/
theorem range'_find?_eq_none {p : Nat → Bool} {s n : Nat} :
    (List.range' s n).find? p = none ↔ ∀ j, s ≤ j → j < s + n → p j = false := by
  rw [List.find?_eq_none]
  constructor
  · intro h j hj1 hj2
    have := h j (by rw [List.mem_range'_1]; omega)
    rcases hp : p j with _ | _
    · rfl
    · exact absurd hp this
  · intro h x hx
    rw [List.mem_range'_1] at hx
    rw [h x (by omega) (by omega)]
    simp

theorem range_find?_eq_some {p : Nat → Bool} {n i : Nat} :
    (List.range n).find? p = some i ↔
      i < n ∧ p i = true ∧ ∀ j, j < i → p j = false := by
  rw [List.range_eq_range', range'_find?_eq_some]
  constructor
  · rintro ⟨_, h2, h3, h4⟩
    exact ⟨by omega, h3, fun j hj => h4 j (Nat.zero_le j) hj⟩
  · rintro ⟨h1, h2, h3⟩
    exact ⟨Nat.zero_le i, by omega, h2, fun j _ hj => h3 j hj⟩

theorem range_find?_eq_none {p : Nat → Bool} {n : Nat} :
    (List.range n).find? p = none ↔ ∀ j, j < n → p j = false := by
  rw [List.range_eq_range', range'_find?_eq_none]
  constructor
  · intro h j hj
    exact h j (Nat.zero_le j) (by omega)
  · intro h j _ hj
    exact h j (by omega)

/-- The literal two-branch scan of the source, rewritten through `rel_slot`:
every side scans its target line starting at its own edge (distance 0) and
moving toward the opposite edge (distance 6). -/
theorem find_first_empty_slot_eq_rel (b : Board) (side : Side) (p : Nat) :
    find_first_empty_slot b side p =
      ((List.range 7).find? (fun i => (b (rel_slot side p i)).isNone)).map
        (rel_slot side p) := by
  have hrev : (List.range 7).reverse = (List.range 7).map (fun i => 6 - i) := by decide
  cases side
  · rfl
  · show ((List.range 7).reverse.find? (fun hor => (b (hor, p)).isNone)).map
        (fun hor => ((hor, p) : Slot)) = _
    rw [hrev, List.find?_map, Option.map_map]
    rfl
  · rfl
  · show ((List.range 7).reverse.find? (fun ver => (b (p, ver)).isNone)).map
        (fun ver => ((p, ver) : Slot)) = _
    rw [hrev, List.find?_map, Option.map_map]
    rfl

/-- Scan characterization: the result is the slot of the target line at the
least edge distance that is empty; every slot strictly nearer the insertion
edge is occupied. -/
theorem find_first_empty_slot_eq_some_iff (b : Board) (side : Side) (p : Nat) (s : Slot) :
    find_first_empty_slot b side p = some s ↔
      ∃ e, e < 7 ∧ s = rel_slot side p e ∧ b (rel_slot side p e) = none ∧
        ∀ j, j < e → (b (rel_slot side p j)).isSome := by
  rw [find_first_empty_slot_eq_rel]
  constructor
  · intro h
    rcases Option.map_eq_some'.mp h with ⟨e, he, rfl⟩
    rw [range_find?_eq_some] at he
    refine ⟨e, he.1, rfl, Option.isNone_iff_eq_none.mp he.2.1, fun j hj => ?_⟩
    have := he.2.2 j hj
    rcases ho : b (rel_slot side p j) with _ | c
    · rw [ho] at this; cases this
    · simp
  · rintro ⟨e, he1, rfl, he2, he3⟩
    have : (List.range 7).find? (fun i => (b (rel_slot side p i)).isNone) = some e := by
      rw [range_find?_eq_some]
      refine ⟨he1, by rw [he2]; rfl, fun j hj => ?_⟩
      have := he3 j hj
      rcases ho : b (rel_slot side p j) with _ | c
      · rw [ho] at this; cases this
      · rfl
    rw [this]; rfl

/-- The scan fails exactly when the targeted line has no empty slot. -/
theorem find_first_empty_slot_eq_none_iff (b : Board) (side : Side) (p : Nat) :
    find_first_empty_slot b side p = none ↔
      ∀ j, j < 7 → (b (rel_slot side p j)).isSome := by
  rw [find_first_empty_slot_eq_rel]
  rw [Option.map_eq_none', range_find?_eq_none]
  constructor
  · intro h j hj
    have := h j hj
    rcases ho : b (rel_slot side p j) with _ | c
    · rw [ho] at this; cases this
    · simp
  · intro h j hj
    have := h j hj
    rcases ho : b (rel_slot side p j) with _ | c
    · rw [ho] at this; cases this
    · rfl

/-- Distances from the insertion edge are mapped to pairwise distinct slots
(for distances on the board). -/
theorem rel_slot_inj (side : Side) (p : Nat) {i j : Nat} (hi : i ≤ 6) (hj : j ≤ 6)
    (h : rel_slot side p i = rel_slot side p j) : i = j := by
  cases side <;> simp only [rel_slot, Prod.mk.injEq] at h <;> omega

/-- The shift loop of `_insert_marble` visits the distances e, e-1, ..., 1
(from the first empty slot back toward the insertion edge). -/
def rel_shift_list (e : Nat) : List Nat := (List.range e).map (fun k => e - k)

theorem rel_shift_list_succ (e : Nat) :
    rel_shift_list (e + 1) = (e + 1) :: rel_shift_list e := by
  unfold rel_shift_list
  rw [List.range_succ_eq_map, List.map_cons, List.map_map]
  refine congrArg (fun l => (e + 1 - 0) :: l) ?_
  apply List.map_congr_left
  intro k _
  simp only [Function.comp_apply]
  omega

/-- One shift step in the edge-distance frame: copy the colour at distance
x - 1 to distance x and emit the shifted event for the source slot. -/
def rel_step (f : Nat → Slot) (dir : Side) (acc : Board × List MoveEvent) (x : Nat) :
    Option (Board × List MoveEvent) := do
  let c ← acc.1 (f (x - 1))
  pure (Function.update acc.1 (f x) (some c), acc.2 ++ [.shifted (f (x - 1)) dir])

/-- foldlM only depends on the step function's values at list members. -/
theorem foldlM_congr_mem {m : Type u → Type v} [Monad m] {α β : Type u}
    {f g : β → α → m β} (l : List α) (h : ∀ acc x, x ∈ l → f acc x = g acc x)
    (init : β) : l.foldlM f init = l.foldlM g init := by
  induction l generalizing init with
  | nil => rfl
  | cons a l ih =>
    rw [List.foldlM_cons, List.foldlM_cons, h init a (List.mem_cons_self a l)]
    refine congrArg _ ?_
    funext acc
    exact ih (fun acc x hx => h acc x (List.mem_cons_of_mem a hx)) acc

theorem foldlM_map {m : Type u → Type v} [Monad m] {α γ : Type w} {β : Type u}
    (g : α → γ) (f : β → γ → m β) (l : List α) (init : β) :
    (l.map g).foldlM f init = l.foldlM (fun acc x => f acc (g x)) init := by
  induction l generalizing init with
  | nil => rfl
  | cons a l ih =>
    rw [List.map_cons, List.foldlM_cons, List.foldlM_cons]
    refine congrArg _ ?_
    funext acc
    exact ih acc

/-- Closed form of the shift loop, in the edge-distance frame: the loop
succeeds (every slot it reads is occupied), shifts each colour one step away
from the edge, leaves everything else (including the edge slot, distance 0)
untouched, and emits the shifted events outermost-first. -/
theorem rel_fold_spec (f : Nat → Slot) (dir : Side) (e : Nat)
    (hinj : ∀ i j, i ≤ e → j ≤ e → f i = f j → i = j) :
    ∀ (b : Board) (evs : List MoveEvent), (∀ i, i < e → (b (f i)).isSome) →
    ∃ B, (rel_shift_list e).foldlM (rel_step f dir) (b, evs) = some (B, evs ++
        (List.range e).map (fun j => MoveEvent.shifted (f (e - 1 - j)) dir)) ∧
      (∀ i, 1 ≤ i → i ≤ e → B (f i) = b (f (i - 1))) ∧
      (∀ t, (∀ i, i ≤ e → t ≠ f i) → B t = b t) ∧
      B (f 0) = b (f 0) := by
  induction e with
  | zero =>
    intro b evs _
    refine ⟨b, ?_, ?_, ?_, rfl⟩
    · simp [rel_shift_list]
    · intro i h1 h2; omega
    · intro t _; rfl
  | succ e ih =>
    intro b evs hocc
    have hce : (b (f e)).isSome := hocc e (Nat.lt_succ_self e)
    rcases hc : b (f e) with _ | c
    · rw [hc] at hce; cases hce
    rw [rel_shift_list_succ, List.foldlM_cons]
    have hstep : rel_step f dir (b, evs) (e + 1) =
        some (Function.update b (f (e + 1)) (some c), evs ++ [.shifted (f e) dir]) := by
      simp [rel_step, Nat.add_sub_cancel, hc]
    rw [hstep]
    have hne : ∀ i, i ≤ e → f i ≠ f (e + 1) := by
      intro i hi hcontra
      have := hinj i (e + 1) (Nat.le_succ_of_le hi) (Nat.le_refl _) hcontra
      omega
    have hocc' : ∀ i, i < e → ((Function.update b (f (e + 1)) (some c)) (f i)).isSome := by
      intro i hi
      rw [Function.update_noteq (hne i (Nat.le_of_lt hi))]
      exact hocc i (Nat.lt_succ_of_lt hi)
    rcases ih (fun i j hi hj => hinj i j (Nat.le_succ_of_le hi) (Nat.le_succ_of_le hj))
        (Function.update b (f (e + 1)) (some c)) (evs ++ [.shifted (f e) dir]) hocc'
      with ⟨B, hfold, hshift, hoff, hzero⟩
    refine ⟨B, ?_, ?_, ?_, ?_⟩
    · simp only [Option.bind_eq_bind, Option.some_bind]
      rw [hfold]
      refine congrArg (fun l => some (B, l)) ?_
      rw [List.append_assoc, List.range_succ_eq_map, List.map_cons, List.map_map,
        List.singleton_append]
      refine congrArg (fun l => evs ++ l) (congrArg₂ List.cons rfl ?_)
      apply List.map_congr_left
      intro k _
      simp only [Function.comp_apply]
      refine congrArg (fun t => MoveEvent.shifted (f t) dir) ?_
      omega
    · intro i h1 h2
      rcases Nat.lt_or_ge i (e + 1) with hi | hi
      · rw [hshift i h1 (by omega), Function.update_noteq (hne (i - 1) (by omega))]
      · have : i = e + 1 := by omega
        subst this
        rw [hoff (f (e + 1)) (fun j hj hcontra => by
          exact absurd (hinj (e + 1) j (Nat.le_refl _) (Nat.le_succ_of_le hj) hcontra)
            (by omega))]
        rw [Function.update_same, Nat.add_sub_cancel, hc]
    · intro t ht
      rw [hoff t (fun i hi => ht i (Nat.le_succ_of_le hi)),
        Function.update_noteq (ht (e + 1) (Nat.le_refl _))]
    · rw [hzero, Function.update_noteq (hne 0 (Nat.zero_le e))]

theorem mem_rel_shift_list {x e : Nat} : x ∈ rel_shift_list e ↔ 1 ≤ x ∧ x ≤ e := by
  simp only [rel_shift_list, List.mem_map, List.mem_range]
  constructor
  · rintro ⟨k, hk, rfl⟩; omega
  · rintro ⟨h1, h2⟩; exact ⟨e - x, by omega, by omega⟩

/-- What `_insert_marble` does on a legal move, stated in the edge-distance
frame: if the first empty slot of the targeted line sits at distance e from
the insertion edge (everything nearer is occupied), the call succeeds, the
occupied block of the line shifts one step away from the edge, the mover's
colour lands on the edge slot, every other slot is untouched, and the events
are the shifted events outermost-first followed by the single inserted
event. -/
theorem insert_marble_spec (b : Board) (side : Side) (p : Nat) (mover : Colour) (e : Nat)
    (he : e < 7) (hempty : b (rel_slot side p e) = none)
    (hocc : ∀ j, j < e → (b (rel_slot side p j)).isSome) :
    ∃ B, insert_marble b side p mover =
        some (Function.update B (rel_slot side p 0) (some mover),
          (List.range e).map (fun j =>
            MoveEvent.shifted (rel_slot side p (e - 1 - j)) side.opposite)
            ++ [MoveEvent.inserted (rel_slot side p 0)]) ∧
      (∀ i, 1 ≤ i → i ≤ e → B (rel_slot side p i) = b (rel_slot side p (i - 1))) ∧
      (∀ t, (∀ i, i ≤ e → t ≠ rel_slot side p i) → B t = b t) ∧
      B (rel_slot side p 0) = b (rel_slot side p 0) := by
  have hfind : find_first_empty_slot b side p = some (rel_slot side p e) :=
    (find_first_empty_slot_eq_some_iff b side p _).mpr ⟨e, he, rfl, hempty, hocc⟩
  have hinj : ∀ i j, i ≤ e → j ≤ e → rel_slot side p i = rel_slot side p j → i = j :=
    fun i j hi hj h => rel_slot_inj side p (by omega) (by omega) h
  rcases rel_fold_spec (rel_slot side p) side.opposite e hinj b [] hocc with
    ⟨B, hfold, hshift, hoff, hzero⟩
  rw [List.nil_append] at hfold
  refine ⟨B, ?_, hshift, hoff, hzero⟩
  unfold insert_marble
  rw [hfind]
  simp only [Option.bind_eq_bind, Option.some_bind]
  cases side
  case left =>
    have hxs : py_range_step e Side.left.position (-Side.left.shift_direction) =
        rel_shift_list e := rfl
    show (Option.bind ((py_range_step e Side.left.position
        (-Side.left.shift_direction)).foldlM (shift_step_ver .left p) (b, [])) _) = _
    rw [hxs, foldlM_congr_mem (rel_shift_list e) (g := rel_step (rel_slot .left p)
        Side.left.opposite) ?hcg (b, []), hfold]
    case hcg =>
      intro acc x _
      have hox : ((((x : Nat) : Int) - Side.left.shift_direction).toNat, p) =
          rel_slot Side.left p (x - 1) := by
        simp only [Side.shift_direction, rel_slot, Prod.mk.injEq, and_true]
        omega
      simp only [shift_step_ver, rel_step, hox]
      rfl
    rfl
  case right =>
    have hxs : py_range_step (rel_slot Side.right p e).1 Side.right.position
        (-Side.right.shift_direction) = (rel_shift_list e).map (fun x => 6 - x) := by
      show py_range_step (6 - e) 6 1 = _
      unfold py_range_step rel_shift_list
      rw [if_neg (by decide), List.map_map, show 6 - (6 - e) = e by omega]
      apply List.map_congr_left
      intro k hk
      rw [List.mem_range] at hk
      simp only [Function.comp_apply]
      omega
    show (Option.bind ((py_range_step (rel_slot Side.right p e).1 Side.right.position
        (-Side.right.shift_direction)).foldlM (shift_step_ver .right p) (b, [])) _) = _
    rw [hxs, foldlM_map, foldlM_congr_mem (rel_shift_list e)
        (g := rel_step (rel_slot .right p) Side.right.opposite) ?hcg (b, []), hfold]
    case hcg =>
      intro acc x hx
      rw [mem_rel_shift_list] at hx
      have hox : ((((6 - x : Nat) : Int) - Side.right.shift_direction).toNat, p) =
          rel_slot Side.right p (x - 1) := by
        simp only [Side.shift_direction, rel_slot, Prod.mk.injEq, and_true]
        omega
      have hup : (((6 - x : Nat), p) : Slot) = rel_slot Side.right p x := rfl
      simp only [shift_step_ver, rel_step, hox, hup]
    rfl
  case top =>
    have hxs : py_range_step e Side.top.position (-Side.top.shift_direction) =
        rel_shift_list e := rfl
    show (Option.bind ((py_range_step e Side.top.position
        (-Side.top.shift_direction)).foldlM (shift_step_hor .top p) (b, [])) _) = _
    rw [hxs, foldlM_congr_mem (rel_shift_list e) (g := rel_step (rel_slot .top p)
        Side.top.opposite) ?hcg (b, []), hfold]
    case hcg =>
      intro acc x _
      have hox : (p, (((x : Nat) : Int) - Side.top.shift_direction).toNat) =
          rel_slot Side.top p (x - 1) := by
        simp only [Side.shift_direction, rel_slot, Prod.mk.injEq, true_and]
        omega
      simp only [shift_step_hor, rel_step, hox]
      rfl
    rfl
  case bottom =>
    have hxs : py_range_step (rel_slot Side.bottom p e).2 Side.bottom.position
        (-Side.bottom.shift_direction) = (rel_shift_list e).map (fun x => 6 - x) := by
      show py_range_step (6 - e) 6 1 = _
      unfold py_range_step rel_shift_list
      rw [if_neg (by decide), List.map_map, show 6 - (6 - e) = e by omega]
      apply List.map_congr_left
      intro k hk
      rw [List.mem_range] at hk
      simp only [Function.comp_apply]
      omega
    show (Option.bind ((py_range_step (rel_slot Side.bottom p e).2 Side.bottom.position
        (-Side.bottom.shift_direction)).foldlM (shift_step_hor .bottom p) (b, [])) _) = _
    rw [hxs, foldlM_map, foldlM_congr_mem (rel_shift_list e)
        (g := rel_step (rel_slot .bottom p) Side.bottom.opposite) ?hcg (b, []), hfold]
    case hcg =>
      intro acc x hx
      rw [mem_rel_shift_list] at hx
      have hox : (p, (((6 - x : Nat) : Int) - Side.bottom.shift_direction).toNat) =
          rel_slot Side.bottom p (x - 1) := by
        simp only [Side.shift_direction, rel_slot, Prod.mk.injEq, true_and]
        omega
      have hup : ((p, (6 - x : Nat)) : Slot) = rel_slot Side.bottom p x := rfl
      simp only [shift_step_hor, rel_step, hox, hup]
    rfl

/-! ### Counting the board -/

/-- Sum of a slot-content weight over the 49 board slots. -/
def board_sum (F : Option Colour → Nat) (b : Board) : Nat :=
  (all_slots.map (fun s => F (b s))).sum

theorem filter_length_eq_map_sum {α : Type u} (p : α → Bool) (l : List α) :
    (l.filter p).length = (l.map (fun x => if p x then 1 else 0)).sum := by
  induction l with
  | nil => rfl
  | cons a l ih =>
    rw [List.filter_cons, List.map_cons, List.sum_cons, ← ih]
    rcases hp : p a with _ | _
    · simp
    · simp
      omega

theorem list_range_map_sum (f : Nat → Nat) (n : Nat) :
    ((List.range n).map f).sum = ∑ i ∈ Finset.range n, f i := by
  induction n with
  | zero => rfl
  | succ n ih =>
    rw [List.range_succ, List.map_append, List.sum_append, Finset.sum_range_succ, ih]
    simp

theorem map_flatMap_sum {α β : Type u} (l : List α) (f : α → List β) (g : β → Nat) :
    ((l.flatMap f).map g).sum = (l.map (fun x => ((f x).map g).sum)).sum := by
  induction l with
  | nil => rfl
  | cons a l ih =>
    rw [List.flatMap_cons, List.map_append, List.sum_append, List.map_cons, List.sum_cons, ih]

/-- board_sum as a double sum over coordinates. -/
theorem board_sum_eq_double (F : Option Colour → Nat) (b : Board) :
    board_sum F b = ∑ v ∈ Finset.range 7, ∑ h ∈ Finset.range 7, F (b (h, v)) := by
  unfold board_sum all_slots
  rw [map_flatMap_sum, list_range_map_sum]
  refine Finset.sum_congr rfl (fun v _ => ?_)
  rw [List.map_map, list_range_map_sum]
  rfl

/-- Shifting one line: the new line keeps the old content shifted one step
away from the edge, drops the empty slot at distance e and gains `x` at the
edge, so any weight with F none = 0 grows by exactly F x. -/
theorem line_sum_shift (F : Option Colour → Nat) (hF : F none = 0)
    (u w : Nat → Option Colour) (x : Option Colour) (e : Nat) (he : e < 7)
    (hue : u e = none) (hw0 : w 0 = x)
    (hwshift : ∀ i, 1 ≤ i → i ≤ e → w i = u (i - 1))
    (hwrest : ∀ i, e < i → i ≤ 6 → w i = u i) :
    ∑ i ∈ Finset.range 7, F (w i) = (∑ i ∈ Finset.range 7, F (u i)) + F x := by
  have hsplit_w : ∑ i ∈ Finset.range 7, F (w i) =
      (∑ i ∈ Finset.Ico 0 1, F (w i)) + (∑ i ∈ Finset.Ico 1 (e + 1), F (w i)) +
        ∑ i ∈ Finset.Ico (e + 1) 7, F (w i) := by
    rw [Finset.sum_Ico_consecutive (fun i => F (w i)) (by omega) (by omega),
      Finset.sum_Ico_consecutive (fun i => F (w i)) (by omega) (by omega),
      Finset.range_eq_Ico]
  have hsplit_u : ∑ i ∈ Finset.range 7, F (u i) =
      (∑ i ∈ Finset.Ico 0 e, F (u i)) + (∑ i ∈ Finset.Ico e (e + 1), F (u i)) +
        ∑ i ∈ Finset.Ico (e + 1) 7, F (u i) := by
    rw [Finset.sum_Ico_consecutive (fun i => F (u i)) (by omega) (by omega),
      Finset.sum_Ico_consecutive (fun i => F (u i)) (by omega) (by omega),
      Finset.range_eq_Ico]
  have h01 : ∑ i ∈ Finset.Ico 0 1, F (w i) = F x := by
    rw [Finset.sum_Ico_eq_sum_range]
    simp [hw0]
  have hmid : ∑ i ∈ Finset.Ico 1 (e + 1), F (w i) = ∑ i ∈ Finset.Ico 0 e, F (u i) := by
    rw [Finset.sum_Ico_eq_sum_range, Finset.sum_Ico_eq_sum_range]
    simp only [Nat.add_sub_cancel, Nat.sub_zero]
    refine Finset.sum_congr rfl (fun k hk => ?_)
    rw [Finset.mem_range] at hk
    rw [hwshift (1 + k) (by omega) (by omega)]
    refine congrArg (fun t => F (u t)) (by omega)
  have hrest : ∑ i ∈ Finset.Ico (e + 1) 7, F (w i) = ∑ i ∈ Finset.Ico (e + 1) 7, F (u i) := by
    refine Finset.sum_congr rfl (fun i hi => ?_)
    rw [Finset.mem_Ico] at hi
    rw [hwrest i (by omega) (by omega)]
  have hmid_u : ∑ i ∈ Finset.Ico e (e + 1), F (u i) = 0 := by
    rw [Finset.sum_Ico_eq_sum_range]
    simp [hue, hF]
  rw [hsplit_w, hsplit_u, h01, hmid, hrest, hmid_u]
  ring

/-- The board after a full insertion (shift + placing the mover's marble on
the edge slot of a line inside the board) has board_sum grown by exactly
F (some mover). -/
theorem board_sum_update_line (F : Option Colour → Nat) (hF : F none = 0)
    (b B : Board) (side : Side) (p : Nat) (mover : Colour) (e : Nat)
    (hp : p < 7) (he : e < 7) (hempty : b (rel_slot side p e) = none)
    (h1 : ∀ i, 1 ≤ i → i ≤ e → B (rel_slot side p i) = b (rel_slot side p (i - 1)))
    (h2 : ∀ t, (∀ i, i ≤ e → t ≠ rel_slot side p i) → B t = b t) :
    board_sum F (Function.update B (rel_slot side p 0) (some mover)) =
      board_sum F b + F (some mover) := by
  set B' := Function.update B (rel_slot side p 0) (some mover) with hB'
  have hw0 : B' (rel_slot side p 0) = some mover := Function.update_same _ _ _
  have hwshift : ∀ i, 1 ≤ i → i ≤ e → B' (rel_slot side p i) = b (rel_slot side p (i - 1)) := by
    intro i hi1 hi2
    rw [hB', Function.update_noteq, h1 i hi1 hi2]
    intro hcontra
    have := rel_slot_inj side p (by omega) (by omega) hcontra
    omega
  have hwrest : ∀ i, e < i → i ≤ 6 → B' (rel_slot side p i) = b (rel_slot side p i) := by
    intro i hi1 hi2
    have hne : ∀ j, j ≤ e → rel_slot side p i ≠ rel_slot side p j := by
      intro j hj hcontra
      have := rel_slot_inj side p (by omega) (by omega) hcontra
      omega
    rw [hB', Function.update_noteq (hne 0 (Nat.zero_le e)), h2 _ hne]
  have hoff : ∀ t, (∀ i, i ≤ 6 → t ≠ rel_slot side p i) → B' t = b t := by
    intro t ht
    rw [hB', Function.update_noteq (ht 0 (by omega)), h2 t (fun i hi => ht i (by omega))]
  clear hB' h1 h2
  rw [board_sum_eq_double, board_sum_eq_double]
  cases side
  case left =>
    have hrow : ∀ v, v ∈ Finset.range 7 →
        (∑ h ∈ Finset.range 7, F (B' (h, v))) =
          (∑ h ∈ Finset.range 7, F (b (h, v))) + (if v = p then F (some mover) else 0) := by
      intro v _
      by_cases hv : v = p
      · subst hv
        rw [if_pos rfl]
        exact line_sum_shift F hF (fun i => b (i, v)) (fun i => B' (i, v)) (some mover)
          e he hempty hw0 hwshift hwrest
      · rw [if_neg hv, Nat.add_zero]
        refine Finset.sum_congr rfl (fun h _ => ?_)
        rw [hoff (h, v) (fun i _ => by simp only [rel_slot, Prod.mk.injEq, ne_eq, not_and]
                                       intro _; exact hv)]
    rw [Finset.sum_congr rfl hrow, Finset.sum_add_distrib, Finset.sum_ite_eq' (Finset.range 7) p
      (fun _ => F (some mover)), if_pos (Finset.mem_range.mpr hp)]
  case right =>
    have hrow : ∀ v, v ∈ Finset.range 7 →
        (∑ h ∈ Finset.range 7, F (B' (h, v))) =
          (∑ h ∈ Finset.range 7, F (b (h, v))) + (if v = p then F (some mover) else 0) := by
      intro v _
      by_cases hv : v = p
      · subst hv
        rw [if_pos rfl, ← Finset.sum_range_reflect (fun h => F (B' (h, v))) 7,
          ← Finset.sum_range_reflect (fun h => F (b (h, v))) 7]
        exact line_sum_shift F hF (fun i => b (7 - 1 - i, v)) (fun i => B' (7 - 1 - i, v))
          (some mover) e he hempty hw0 hwshift hwrest
      · rw [if_neg hv, Nat.add_zero]
        refine Finset.sum_congr rfl (fun h _ => ?_)
        rw [hoff (h, v) (fun i _ => by simp only [rel_slot, Prod.mk.injEq, ne_eq, not_and]
                                       intro _; exact hv)]
    rw [Finset.sum_congr rfl hrow, Finset.sum_add_distrib, Finset.sum_ite_eq' (Finset.range 7) p
      (fun _ => F (some mover)), if_pos (Finset.mem_range.mpr hp)]
  case top =>
    rw [Finset.sum_comm (f := fun v h => F (B' (h, v))),
      Finset.sum_comm (f := fun v h => F (b (h, v)))]
    have hcol : ∀ h, h ∈ Finset.range 7 →
        (∑ v ∈ Finset.range 7, F (B' (h, v))) =
          (∑ v ∈ Finset.range 7, F (b (h, v))) + (if h = p then F (some mover) else 0) := by
      intro h _
      by_cases hh : h = p
      · subst hh
        rw [if_pos rfl]
        exact line_sum_shift F hF (fun i => b (h, i)) (fun i => B' (h, i)) (some mover)
          e he hempty hw0 hwshift hwrest
      · rw [if_neg hh, Nat.add_zero]
        refine Finset.sum_congr rfl (fun v _ => ?_)
        rw [hoff (h, v) (fun i _ => by simp only [rel_slot, Prod.mk.injEq, ne_eq, not_and]
                                       intro hcontra; omega)]
    rw [Finset.sum_congr rfl hcol, Finset.sum_add_distrib, Finset.sum_ite_eq' (Finset.range 7) p
      (fun _ => F (some mover)), if_pos (Finset.mem_range.mpr hp)]
  case bottom =>
    rw [Finset.sum_comm (f := fun v h => F (B' (h, v))),
      Finset.sum_comm (f := fun v h => F (b (h, v)))]
    have hcol : ∀ h, h ∈ Finset.range 7 →
        (∑ v ∈ Finset.range 7, F (B' (h, v))) =
          (∑ v ∈ Finset.range 7, F (b (h, v))) + (if h = p then F (some mover) else 0) := by
      intro h _
      by_cases hh : h = p
      · subst hh
        rw [if_pos rfl, ← Finset.sum_range_reflect (fun v => F (B' (h, v))) 7,
          ← Finset.sum_range_reflect (fun v => F (b (h, v))) 7]
        exact line_sum_shift F hF (fun i => b (h, 7 - 1 - i)) (fun i => B' (h, 7 - 1 - i))
          (some mover) e he hempty hw0 hwshift hwrest
      · rw [if_neg hh, Nat.add_zero]
        refine Finset.sum_congr rfl (fun v _ => ?_)
        rw [hoff (h, v) (fun i _ => by simp only [rel_slot, Prod.mk.injEq, ne_eq, not_and]
                                       intro hcontra; omega)]
    rw [Finset.sum_congr rfl hcol, Finset.sum_add_distrib, Finset.sum_ite_eq' (Finset.range 7) p
      (fun _ => F (some mover)), if_pos (Finset.mem_range.mpr hp)]

theorem count_colour_eq_board_sum (b : Board) (c : Colour) :
    count_colour b c = board_sum (fun o => if o = some c then 1 else 0) b := by
  unfold count_colour board_sum
  rw [filter_length_eq_map_sum]
  refine congrArg List.sum (List.map_congr_left (fun s _ => ?_))
  show (if decide (b s = some c) = true then 1 else 0) = if b s = some c then 1 else 0
  by_cases h : b s = some c
  · rw [if_pos (by simp [h]), if_pos h]
  · rw [if_neg (by simp [h]), if_neg h]

theorem count_occupied_eq_board_sum (b : Board) :
    count_occupied_slots b = board_sum (fun o => if o.isSome then 1 else 0) b := by
  unfold count_occupied_slots board_sum
  rw [filter_length_eq_map_sum]

/-- Inserting a marble raises the mover's count by one and leaves the other
counts unchanged. -/
theorem count_colour_after_insert (b B : Board) (side : Side) (p : Nat) (mover : Colour)
    (e : Nat) (hp : p < 7) (he : e < 7) (hempty : b (rel_slot side p e) = none)
    (h1 : ∀ i, 1 ≤ i → i ≤ e → B (rel_slot side p i) = b (rel_slot side p (i - 1)))
    (h2 : ∀ t, (∀ i, i ≤ e → t ≠ rel_slot side p i) → B t = b t) (c : Colour) :
    count_colour (Function.update B (rel_slot side p 0) (some mover)) c =
      count_colour b c + (if mover = c then 1 else 0) := by
  rw [count_colour_eq_board_sum, count_colour_eq_board_sum,
    board_sum_update_line (fun o => if o = some c then 1 else 0) (by simp)
      b B side p mover e hp he hempty h1 h2]
  by_cases h : mover = c
  · subst h; simp
  · rw [if_neg h, if_neg (by simpa using h)]

/-- Inserting a marble raises the number of occupied slots by one. -/
theorem count_occupied_after_insert (b B : Board) (side : Side) (p : Nat) (mover : Colour)
    (e : Nat) (hp : p < 7) (he : e < 7) (hempty : b (rel_slot side p e) = none)
    (h1 : ∀ i, 1 ≤ i → i ≤ e → B (rel_slot side p i) = b (rel_slot side p (i - 1)))
    (h2 : ∀ t, (∀ i, i ≤ e → t ≠ rel_slot side p i) → B t = b t) :
    count_occupied_slots (Function.update B (rel_slot side p 0) (some mover)) =
      count_occupied_slots b + 1 := by
  rw [count_occupied_eq_board_sum, count_occupied_eq_board_sum,
    board_sum_update_line (fun o => if o.isSome then 1 else 0) (by simp)
      b B side p mover e hp he hempty h1 h2]
  rfl

theorem sum_map_ite_count {α : Type u} [DecidableEq α] (a : α) (l : List α) :
    (l.map (fun c => if a = c then 1 else 0)).sum = l.count a := by
  induction l with
  | nil => rfl
  | cons x l ih =>
    rw [List.map_cons, List.sum_cons, ih, List.count_cons]
    by_cases h : a = x
    · subst h; simp [Nat.add_comm]
    · have h2 : (x == a) = false := by
        simp only [beq_eq_false_iff_ne, ne_eq]
        exact fun hc => h hc.symm
      simp [h, h2]

/-- With no duplicate colours and every marble on the board belonging to one
of the game's colours, the per-colour counts add up to the number of
occupied slots (sum(count_slots_per_colour().values()) == len(board)). -/
theorem sum_counts_eq_occupied (b : Board) (colours : List Colour)
    (hnd : colours.Nodup) (hwf : ∀ s c, b s = some c → c ∈ colours) :
    ((count_slots_per_colour b colours).map (·.2)).sum = count_occupied_slots b := by
  unfold count_slots_per_colour count_occupied_slots count_colour
  rw [List.map_map]
  show (colours.map (fun c => ((all_slots.filter (fun s => b s = some c)).length))).sum = _
  induction all_slots with
  | nil => simp
  | cons s L ih =>
    rcases hb : b s with _ | c0
    · rw [List.filter_cons_of_neg (by simp [hb])]
      rw [← ih]
      refine congrArg List.sum (List.map_congr_left (fun c _ => ?_))
      rw [List.filter_cons_of_neg (by simp [hb])]
    · rw [List.filter_cons_of_pos (by simp [hb]), List.length_cons]
      have hsplit : (colours.map (fun c =>
          ((List.filter (fun s => decide (b s = some c)) (s :: L)).length))).sum =
          (colours.map (fun c => if c0 = c then 1 else 0)).sum +
          (colours.map (fun c =>
            ((List.filter (fun s => decide (b s = some c)) L).length))).sum := by
        rw [← List.sum_map_add]
        refine congrArg List.sum (List.map_congr_left (fun c _ => ?_))
        rw [List.filter_cons]
        by_cases h : c0 = c
        · subst h
          rw [if_pos (by simp [hb]), if_pos rfl, List.length_cons, Nat.add_comm]
        · rw [if_neg (by simp [hb]; exact fun hcontra => h hcontra), if_neg h,
            Nat.zero_add]
      rw [hsplit, ih, sum_map_ite_count,
        List.count_eq_one_of_mem hnd (hwf s c0 hb), Nat.add_comm]

/-- apply_move on a live state, unfolded: insert, then the source's branch
structure (win check first, then free-slot check, then supply check for the
next colour, else rotation). -/
theorem apply_move_eq (s : GameState) (m : Move) (mover next : Colour) (B : Board)
    (evs : List MoveEvent)
    (hover : s.game_over_condition = none)
    (hhead : s.colours.head? = some mover)
    (hnext : s.colours[1]? = some next)
    (hins : insert_marble s.board m.side m.position mover = some (B, evs)) :
    apply_move s m = some (
      if has_winning_line s.winning_line_length B mover then
        { s with board := B, game_over_condition := some ⟨some mover⟩ }
      else if ((count_slots_per_colour B s.colours).map (·.2)).sum <
          NUM_SLOTS_PER_SIDE * NUM_SLOTS_PER_SIDE then
        if count_colour B next = NUM_MARBLES_PER_COLOUR then
          { s with board := B, game_over_condition := some ⟨none⟩ }
        else { s with board := B, colours := s.colours.rotate 1 }
      else { s with board := B, game_over_condition := some ⟨none⟩ }, evs) := by
  unfold apply_move
  rw [hover]
  simp only [Option.isSome_none, Bool.false_eq_true, if_false, hhead, hins, hnext,
    Option.bind_eq_bind, Option.some_bind, Option.pure_def]
  by_cases hwin : has_winning_line s.winning_line_length B mover
  · rw [if_pos hwin, if_pos hwin]
  · rw [if_neg hwin, if_neg hwin]
    by_cases hfree : ((count_slots_per_colour B s.colours).map (·.2)).sum <
        NUM_SLOTS_PER_SIDE * NUM_SLOTS_PER_SIDE
    · rw [if_pos hfree, if_pos hfree]
      by_cases hsupply : count_colour B next = NUM_MARBLES_PER_COLOUR
      · rw [if_pos hsupply, if_pos hsupply]
      · rw [if_neg hsupply, if_neg hsupply]
    · rw [if_neg hfree, if_neg hfree]

/-! ### Claim theorems -/

/-- C10: calling apply_move on a state whose game-over condition is already
set fails immediately (the Python assert "Game is already over!" fires as
the first statement): no successor state is produced, so the board, the
colour sequence and the game-over condition are necessarily untouched - the
failure happens before any mutation. -/
theorem apply_move_on_terminal_fails (s : GameState) (m : Move) (g : GameOverCondition)
    (h : s.game_over_condition = some g) : apply_move s m = none := by
  unfold apply_move
  rw [h]
  rfl

theorem apply_move_on_terminal_fails_witness :
    apply_move ⟨[Colour.blue, Colour.green], fun _ => none, 5, some ⟨none⟩⟩
      ⟨Side.left, 0⟩ = none :=
  apply_move_on_terminal_fails _ _ ⟨none⟩ rfl

/-- The concrete board refuting C2 as stated: a single BLUE marble on the
LEFT edge of row 3. -/
def c2_board : Board := fun s => if s = ((0, 3) : Slot) then some Colour.blue else none

/-- C2 counterexample: find_first_empty_slot does NOT scan from the edge
opposite the side, and does not return the slot where the inserted marble
settles. On c2_board with side LEFT, row 3: the slot (6,3) on the opposite
(RIGHT) edge is empty, so a scan starting there would return (6,3); the code
returns (1,3); and the inserted marble actually settles on the LEFT edge
slot (0,3) (the inserted event is emitted there), which is yet another
slot. -/
theorem find_first_empty_slot_c2_counterexample :
    find_first_empty_slot c2_board .left 3 = some ((1, 3) : Slot) ∧
    c2_board ((6, 3) : Slot) = none ∧
    ((1, 3) : Slot) ≠ ((6, 3) : Slot) ∧
    (insert_marble c2_board .left 3 Colour.green).map (·.2) =
      some [MoveEvent.shifted (0, 3) .right, MoveEvent.inserted (0, 3)] ∧
    ((0, 3) : Slot) ≠ ((1, 3) : Slot) := by
  refine ⟨by decide, by decide, by decide, ?_, by decide⟩
  decide

/-- C2 (amended): find_first_empty_slot(side, p) scans the targeted line
starting at the edge of `side` itself (edge distance 0) and moving toward
the opposite edge (distance 6); it returns the first empty slot encountered
- the slot the shifted block compacts into, while the inserted marble itself
settles on the edge slot of `side` - and returns None exactly when the
targeted line has no empty slot. -/
theorem find_first_empty_slot_spec (b : Board) (side : Side) (p : Nat) :
    (∀ s, find_first_empty_slot b side p = some s ↔
      ∃ e, e < 7 ∧ s = rel_slot side p e ∧ b (rel_slot side p e) = none ∧
        ∀ j, j < e → (b (rel_slot side p j)).isSome) ∧
    (find_first_empty_slot b side p = none ↔
      ∀ j, j < 7 → (b (rel_slot side p j)).isSome) :=
  ⟨fun s => find_first_empty_slot_eq_some_iff b side p s,
   find_first_empty_slot_eq_none_iff b side p⟩

/-- The scan succeeds iff the targeted line has an empty slot. -/
theorem find_first_empty_slot_isSome_iff (b : Board) (side : Side) (p : Nat) :
    (find_first_empty_slot b side p).isSome ↔
      ∃ j, j < 7 ∧ b (rel_slot side p j) = none := by
  rcases hf : find_first_empty_slot b side p with _ | s
  · simp only [Option.isSome_none, Bool.false_eq_true, false_iff]
    rw [find_first_empty_slot_eq_none_iff] at hf
    push_neg
    intro j hj hc
    have := hf j hj
    rw [hc] at this
    cases this
  · simp only [Option.isSome_some, true_iff]
    rw [find_first_empty_slot_eq_some_iff] at hf
    rcases hf with ⟨e, he, _, hempty, _⟩
    exact ⟨e, he, hempty⟩

/-- The line slot at distance j from the opposite edge is the line slot at
distance 6 - j from the side's own edge. -/
theorem rel_slot_opposite (side : Side) (p j : Nat) (hj : j ≤ 6) :
    rel_slot side.opposite p j = rel_slot side p (6 - j) := by
  cases side
  · rfl
  · exact congrArg (fun t => ((t, p) : Slot)) (by omega)
  · rfl
  · exact congrArg (fun t => ((p, t) : Slot)) (by omega)

/-- The TOP and BOTTOM scans of the same column (and the LEFT and RIGHT
scans of the same row) succeed together: both succeed iff the targeted line
has an empty slot. -/
theorem find_first_empty_slot_isSome_opposite (b : Board) (side : Side) (p : Nat) :
    (find_first_empty_slot b side.opposite p).isSome =
      (find_first_empty_slot b side p).isSome := by
  rw [Bool.eq_iff_iff, find_first_empty_slot_isSome_iff, find_first_empty_slot_isSome_iff]
  constructor
  · rintro ⟨j, hj, h⟩
    refine ⟨6 - j, by omega, ?_⟩
    rw [← rel_slot_opposite side p j (by omega)]
    exact h
  · rintro ⟨j, hj, h⟩
    refine ⟨6 - j, by omega, ?_⟩
    rw [rel_slot_opposite side p (6 - j) (by omega), show 6 - (6 - j) = j by omega]
    exact h

theorem mem_detect_cols (b : Board) (m : Move) :
    m ∈ ((List.range NUM_SLOTS_PER_SIDE).flatMap (fun hor =>
        if (find_first_empty_slot b .top hor).isSome then
          [⟨.top, hor⟩, ⟨.bottom, hor⟩] else [])) ↔
      m.position < 7 ∧ (m.side = .top ∨ m.side = .bottom) ∧
        (find_first_empty_slot b .top m.position).isSome := by
  obtain ⟨ms, mp⟩ := m
  rw [List.mem_flatMap]
  constructor
  · rintro ⟨hor, hmem, hin⟩
    rw [List.mem_range] at hmem
    by_cases hf : (find_first_empty_slot b .top hor).isSome
    · rw [if_pos hf] at hin
      simp only [List.mem_cons, List.not_mem_nil, or_false, Move.mk.injEq] at hin
      rcases hin with ⟨h1, h2⟩ | ⟨h1, h2⟩ <;> subst h1 <;> subst h2
      · exact ⟨hmem, Or.inl rfl, hf⟩
      · exact ⟨hmem, Or.inr rfl, hf⟩
    · rw [if_neg hf] at hin
      cases hin
  · rintro ⟨hpos, hside, hf⟩
    refine ⟨mp, List.mem_range.mpr hpos, ?_⟩
    rw [if_pos hf]
    rcases hside with hside | hside <;> subst hside
    · exact List.mem_cons_self _ _
    · exact List.mem_cons_of_mem _ (List.mem_cons_self _ _)

theorem mem_detect_rows (b : Board) (m : Move) :
    m ∈ ((List.range NUM_SLOTS_PER_SIDE).flatMap (fun ver =>
        if (find_first_empty_slot b .left ver).isSome then
          [⟨.left, ver⟩, ⟨.right, ver⟩] else [])) ↔
      m.position < 7 ∧ (m.side = .left ∨ m.side = .right) ∧
        (find_first_empty_slot b .left m.position).isSome := by
  obtain ⟨ms, mp⟩ := m
  rw [List.mem_flatMap]
  constructor
  · rintro ⟨ver, hmem, hin⟩
    rw [List.mem_range] at hmem
    by_cases hf : (find_first_empty_slot b .left ver).isSome
    · rw [if_pos hf] at hin
      simp only [List.mem_cons, List.not_mem_nil, or_false, Move.mk.injEq] at hin
      rcases hin with ⟨h1, h2⟩ | ⟨h1, h2⟩ <;> subst h1 <;> subst h2
      · exact ⟨hmem, Or.inl rfl, hf⟩
      · exact ⟨hmem, Or.inr rfl, hf⟩
    · rw [if_neg hf] at hin
      cases hin
  · rintro ⟨hpos, hside, hf⟩
    refine ⟨mp, List.mem_range.mpr hpos, ?_⟩
    rw [if_pos hf]
    rcases hside with hside | hside <;> subst hside
    · exact List.mem_cons_self _ _
    · exact List.mem_cons_of_mem _ (List.mem_cons_self _ _)

theorem nodup_detect_block (l : List Nat) (hl : l.Nodup) (sideA sideB : Side)
    (hAB : sideA ≠ sideB) (cond : Nat → Bool) :
    (l.flatMap (fun x =>
      if cond x then ([⟨sideA, x⟩, ⟨sideB, x⟩] : List Move) else [])).Nodup := by
  induction l with
  | nil => exact List.nodup_nil
  | cons a l ih =>
    rw [List.flatMap_cons, List.nodup_append]
    rcases hl with _ | ⟨hna, hnd⟩
    refine ⟨?_, ih hnd, ?_⟩
    · by_cases hc : cond a
      · rw [if_pos hc]
        simp [hAB]
      · rw [if_neg hc]
        exact List.nodup_nil
    · intro m hm1 hm2
      rw [List.mem_flatMap] at hm2
      rcases hm2 with ⟨x, hx, hmx⟩
      have hpos1 : m.position = a := by
        by_cases hc : cond a
        · rw [if_pos hc] at hm1
          simp only [List.mem_cons, List.not_mem_nil, or_false] at hm1
          rcases hm1 with h | h <;> rw [h]
        · rw [if_neg hc] at hm1; cases hm1
      have hpos2 : m.position = x := by
        by_cases hc : cond x
        · rw [if_pos hc] at hmx
          simp only [List.mem_cons, List.not_mem_nil, or_false] at hmx
          rcases hmx with h | h <;> rw [h]
        · rw [if_neg hc] at hmx; cases hmx
      exact hna x hx (hpos1.symm.trans hpos2)

/-- Membership characterization of detect_all_possible_moves. -/
theorem mem_detect_iff (b : Board) (side : Side) (pos : Nat) :
    Move.mk side pos ∈ detect_all_possible_moves b ↔
      pos < 7 ∧ ∃ j, j < 7 ∧ b (rel_slot side pos j) = none := by
  unfold detect_all_possible_moves
  rw [List.mem_append, mem_detect_cols, mem_detect_rows]
  cases side
  case left =>
    rw [← find_first_empty_slot_isSome_iff]
    constructor
    · rintro (⟨_, hcontra | hcontra, _⟩ | ⟨hpos, _, hf⟩)
      · cases hcontra
      · cases hcontra
      · exact ⟨hpos, hf⟩
    · rintro ⟨hpos, hf⟩
      exact Or.inr ⟨hpos, Or.inl rfl, hf⟩
  case right =>
    rw [← find_first_empty_slot_isSome_iff, show (find_first_empty_slot b .left pos).isSome
        = (find_first_empty_slot b .right pos).isSome from
        find_first_empty_slot_isSome_opposite b .right pos]
    constructor
    · rintro (⟨_, hcontra | hcontra, _⟩ | ⟨hpos, _, hf⟩)
      · cases hcontra
      · cases hcontra
      · exact ⟨hpos, hf⟩
    · rintro ⟨hpos, hf⟩
      exact Or.inr ⟨hpos, Or.inr rfl, hf⟩
  case top =>
    rw [← find_first_empty_slot_isSome_iff]
    constructor
    · rintro (⟨hpos, _, hf⟩ | ⟨_, hcontra | hcontra, _⟩)
      · exact ⟨hpos, hf⟩
      · cases hcontra
      · cases hcontra
    · rintro ⟨hpos, hf⟩
      exact Or.inl ⟨hpos, Or.inl rfl, hf⟩
  case bottom =>
    rw [← find_first_empty_slot_isSome_iff, show (find_first_empty_slot b .top pos).isSome
        = (find_first_empty_slot b .bottom pos).isSome from
        find_first_empty_slot_isSome_opposite b .bottom pos]
    constructor
    · rintro (⟨hpos, _, hf⟩ | ⟨_, hcontra | hcontra, _⟩)
      · exact ⟨hpos, hf⟩
      · cases hcontra
      · cases hcontra
    · rintro ⟨hpos, hf⟩
      exact Or.inl ⟨hpos, Or.inr rfl, hf⟩

/-- detect_all_possible_moves never lists a move twice. -/
theorem detect_nodup (b : Board) : (detect_all_possible_moves b).Nodup := by
  unfold detect_all_possible_moves
  rw [List.nodup_append]
  refine ⟨nodup_detect_block _ (List.nodup_range _) .top .bottom (by decide) _,
    nodup_detect_block _ (List.nodup_range _) .left .right (by decide) _, ?_⟩
  intro m hm1 hm2
  rw [mem_detect_cols] at hm1
  rw [mem_detect_rows] at hm2
  rcases hm1.2.1 with h | h <;> rcases hm2.2.1 with h' | h' <;> rw [h] at h' <;> cases h'

/-- C5: detect_all_possible_moves contains, for every side and position,
the move (side, pos) exactly when pos is on the board and the line targeted
by that move has at least one empty slot; consequently every open column
contributes both its TOP and BOTTOM move, every open row both its LEFT and
RIGHT move, full lines contribute nothing, and (by the Nodup part) each open
line contributes exactly two distinct legal moves, never one. -/
theorem detect_all_possible_moves_spec (b : Board) :
    (∀ side pos, Move.mk side pos ∈ detect_all_possible_moves b ↔
      pos < 7 ∧ ∃ j, j < 7 ∧ b (rel_slot side pos j) = none) ∧
    (detect_all_possible_moves b).Nodup :=
  ⟨fun side pos => mem_detect_iff b side pos, detect_nodup b⟩

theorem apply_move_some_imp_live (s : GameState) (m : Move) (x : GameState × List MoveEvent)
    (h : apply_move s m = some x) : s.game_over_condition = none := by
  rcases hg : s.game_over_condition with _ | g
  · rfl
  · unfold apply_move at h
    rw [hg] at h
    cases h

/-- C9: on a legal move whose targeted line has its first empty slot at edge
distance e, apply_move emits exactly one shifted event per displaced marble
(the marbles at distances e-1 down to 0 from the insertion edge, i.e. in
physical order outermost-first, starting with the marble farthest from the
insertion edge), each with direction equal to the opposite of the insertion
side, followed by exactly one inserted event for the new marble at the edge
slot; when e = 0 no marble is displaced and the trace is the single inserted
event. -/
theorem apply_move_events_spec (s : GameState) (m : Move) (mover next : Colour) (e : Nat)
    (hover : s.game_over_condition = none)
    (hhead : s.colours.head? = some mover)
    (hnext : s.colours[1]? = some next)
    (he : e < 7)
    (hempty : s.board (rel_slot m.side m.position e) = none)
    (hocc : ∀ j, j < e → (s.board (rel_slot m.side m.position j)).isSome) :
    ∃ s', apply_move s m = some (s',
      (List.range e).map (fun j =>
        MoveEvent.shifted (rel_slot m.side m.position (e - 1 - j)) m.side.opposite)
        ++ [MoveEvent.inserted (rel_slot m.side m.position 0)]) := by
  rcases insert_marble_spec s.board m.side m.position mover e he hempty hocc with
    ⟨B, hins, _, _, _⟩
  exact ⟨_, apply_move_eq s m mover next _ _ hover hhead hnext hins⟩

theorem apply_move_events_spec_witness :
    ∃ s', apply_move ⟨[Colour.blue, Colour.green], c2_board, 5, none⟩ ⟨Side.left, 3⟩ =
      some (s', [MoveEvent.shifted (0, 3) .right, MoveEvent.inserted (0, 3)]) :=
  apply_move_events_spec ⟨[Colour.blue, Colour.green], c2_board, 5, none⟩ ⟨Side.left, 3⟩
    Colour.blue Colour.green 1 rfl rfl rfl (by decide) (by decide) (by decide)

/-- C1: on a legal move of a live 2-colour game, the resulting game-over
condition follows the claimed strict order: if the mover now holds a
complete line of the configured length, the mover wins (even if the board
is also full); otherwise, if all 49 slots are occupied, a draw; otherwise,
if the upcoming colour (the one that did not just move) already has 22
marbles on the board, a draw; otherwise the game continues (None). -/
theorem apply_move_terminal_order (s : GameState) (m : Move) (mover next : Colour) (e : Nat)
    (hover : s.game_over_condition = none)
    (hcolours : s.colours = [mover, next])
    (hdistinct : mover ≠ next)
    (hwf : ∀ t c, s.board t = some c → c = mover ∨ c = next)
    (he : e < 7)
    (hempty : s.board (rel_slot m.side m.position e) = none)
    (hocc : ∀ j, j < e → (s.board (rel_slot m.side m.position j)).isSome) :
    ∃ s' evs, apply_move s m = some (s', evs) ∧
      s'.game_over_condition =
        (if has_winning_line s.winning_line_length s'.board mover then some ⟨some mover⟩
         else if count_occupied_slots s'.board = 49 then some ⟨none⟩
         else if count_colour s'.board next = 22 then some ⟨none⟩
         else none) := by
  rcases insert_marble_spec s.board m.side m.position mover e he hempty hocc with
    ⟨B, hins, h1, h2, h0⟩
  have happ := apply_move_eq s m mover next _ _ hover (by rw [hcolours]; rfl)
    (by rw [hcolours]; rfl) hins
  refine ⟨_, _, happ, ?_⟩
  set B' := Function.update B (rel_slot m.side m.position 0) (some mover) with hBdef
  have hwf' : ∀ t c, B' t = some c → c ∈ s.colours := by
    intro t c htc
    rw [hcolours]
    by_cases hline : ∀ i, i ≤ e → t ≠ rel_slot m.side m.position i
    · rw [hBdef, Function.update_noteq (hline 0 (by omega)), h2 t hline] at htc
      rcases hwf t c htc with h | h <;> simp [h]
    · push_neg at hline
      rcases hline with ⟨i, hi, rfl⟩
      rcases Nat.eq_zero_or_pos i with rfl | hipos
      · rw [hBdef, Function.update_same] at htc
        simp [(Option.some.injEq _ _ ▸ htc : mover = c).symm]
      · rw [hBdef, Function.update_noteq (by
            intro hcontra
            have := rel_slot_inj m.side m.position (by omega) (by omega) hcontra
            omega), h1 i hipos hi] at htc
        rcases hwf _ c htc with h | h <;> simp [h]
  have hnd : s.colours.Nodup := by
    rw [hcolours]
    simp [hdistinct]
  have hsum := sum_counts_eq_occupied B' s.colours hnd hwf'
  have hle : count_occupied_slots B' ≤ 49 := by
    have h49 : all_slots.length = 49 := by decide
    calc (all_slots.filter (fun t => (B' t).isSome)).length
        ≤ all_slots.length := List.length_filter_le _ _
    _ = 49 := h49
  simp only [apply_ite GameState.board, apply_ite GameState.game_over_condition, ite_self]
  by_cases hwin : has_winning_line s.winning_line_length B' mover
  · rw [if_pos hwin, if_pos hwin]
  · rw [if_neg hwin, if_neg hwin]
    show (if ((count_slots_per_colour B' s.colours).map (·.2)).sum <
        NUM_SLOTS_PER_SIDE * NUM_SLOTS_PER_SIDE then _ else _) = _
    rw [hsum]
    by_cases hfull : count_occupied_slots B' = 49
    · rw [if_neg (by rw [hfull]; decide), if_pos hfull]
    · rw [if_pos (by show _ < 49; omega), if_neg hfull]
      by_cases hsupply : count_colour B' next = 22
      · rw [if_pos hsupply,
          if_pos (show count_colour B' next = NUM_MARBLES_PER_COLOUR from hsupply)]
      · rw [if_neg hsupply,
          if_neg (show ¬count_colour B' next = NUM_MARBLES_PER_COLOUR from hsupply)]
        exact hover

theorem apply_move_terminal_order_witness :
    ∃ s' evs, apply_move ⟨[Colour.blue, Colour.green], c2_board, 5, none⟩
        ⟨Side.left, 3⟩ = some (s', evs) ∧
      s'.game_over_condition =
        (if has_winning_line 5 s'.board Colour.blue then some ⟨some Colour.blue⟩
         else if count_occupied_slots s'.board = 49 then some ⟨none⟩
         else if count_colour s'.board Colour.green = 22 then some ⟨none⟩
         else none) :=
  apply_move_terminal_order ⟨[Colour.blue, Colour.green], c2_board, 5, none⟩ ⟨Side.left, 3⟩
    Colour.blue Colour.green 1 rfl rfl (by decide)
    (fun t c h => by
      have h' : c2_board t = some c := h
      by_cases ht : t = ((0, 3) : Slot)
      · subst ht
        have hsc : some Colour.blue = some c := by rw [← h']; rfl
        injection hsc with hbc
        exact Or.inl hbc.symm
      · have hnone : c2_board t = none := by
          unfold c2_board
          rw [if_neg ht]
        rw [hnone] at h'
        cases h')
    (by decide) (by decide) (by decide)

/-- C8: apply_move rotates the colour sequence (head to tail) exactly when
the move is non-terminal; when the move ends the game the colour sequence is
left untouched, so its head is still the player who just moved. -/
theorem apply_move_rotates_iff (s : GameState) (m : Move) (mover next : Colour) (e : Nat)
    (hover : s.game_over_condition = none)
    (hhead : s.colours.head? = some mover)
    (hnext : s.colours[1]? = some next)
    (he : e < 7)
    (hempty : s.board (rel_slot m.side m.position e) = none)
    (hocc : ∀ j, j < e → (s.board (rel_slot m.side m.position j)).isSome) :
    ∃ s' evs, apply_move s m = some (s', evs) ∧
      (s'.game_over_condition = none → s'.colours = s.colours.rotate 1) ∧
      (s'.game_over_condition ≠ none →
        s'.colours = s.colours ∧ s'.colours.head? = some mover) := by
  rcases insert_marble_spec s.board m.side m.position mover e he hempty hocc with
    ⟨B, hins, _, _, _⟩
  have happ := apply_move_eq s m mover next _ _ hover hhead hnext hins
  refine ⟨_, _, happ, ?_, ?_⟩ <;>
    by_cases hwin : has_winning_line s.winning_line_length
      (Function.update B (rel_slot m.side m.position 0) (some mover)) mover
  · rw [if_pos hwin]
    intro hcontra
    cases hcontra
  · rw [if_neg hwin]
    by_cases hfree : ((count_slots_per_colour
        (Function.update B (rel_slot m.side m.position 0) (some mover)) s.colours).map
        (·.2)).sum < NUM_SLOTS_PER_SIDE * NUM_SLOTS_PER_SIDE
    · rw [if_pos hfree]
      by_cases hsupply : count_colour
          (Function.update B (rel_slot m.side m.position 0) (some mover)) next =
          NUM_MARBLES_PER_COLOUR
      · rw [if_pos hsupply]
        intro hcontra
        cases hcontra
      · rw [if_neg hsupply]
        intro _
        rfl
    · rw [if_neg hfree]
      intro hcontra
      cases hcontra
  · rw [if_pos hwin]
    intro _
    exact ⟨rfl, hhead⟩
  · rw [if_neg hwin]
    by_cases hfree : ((count_slots_per_colour
        (Function.update B (rel_slot m.side m.position 0) (some mover)) s.colours).map
        (·.2)).sum < NUM_SLOTS_PER_SIDE * NUM_SLOTS_PER_SIDE
    · rw [if_pos hfree]
      by_cases hsupply : count_colour
          (Function.update B (rel_slot m.side m.position 0) (some mover)) next =
          NUM_MARBLES_PER_COLOUR
      · rw [if_pos hsupply]
        intro _
        exact ⟨rfl, hhead⟩
      · rw [if_neg hsupply]
        intro hcontra
        exact absurd hover (by
          intro h
          exact hcontra h)
    · rw [if_neg hfree]
      intro _
      exact ⟨rfl, hhead⟩

theorem apply_move_rotates_iff_witness :
    ∃ s' evs, apply_move ⟨[Colour.blue, Colour.green], c2_board, 5, none⟩
        ⟨Side.left, 3⟩ = some (s', evs) ∧
      (s'.game_over_condition = none →
        s'.colours = [Colour.blue, Colour.green].rotate 1) ∧
      (s'.game_over_condition ≠ none →
        s'.colours = [Colour.blue, Colour.green] ∧
          s'.colours.head? = some Colour.blue) :=
  apply_move_rotates_iff ⟨[Colour.blue, Colour.green], c2_board, 5, none⟩ ⟨Side.left, 3⟩
    Colour.blue Colour.green 1 rfl rfl rfl (by decide) (by decide) (by decide)

/-! ### Reachability (C7) -/

/-- A move listed by detect_all_possible_moves targets a line with a first
empty slot: the insertion precondition of _insert_marble holds. -/
theorem mem_detect_imp_legal (b : Board) (m : Move)
    (hm : m ∈ detect_all_possible_moves b) :
    m.position < 7 ∧ ∃ e, e < 7 ∧ b (rel_slot m.side m.position e) = none ∧
      ∀ j, j < e → (b (rel_slot m.side m.position j)).isSome := by
  obtain ⟨ms, mp⟩ := m
  rw [mem_detect_iff] at hm
  rcases hm with ⟨hpos, hopen⟩
  refine ⟨hpos, ?_⟩
  have hsome : (find_first_empty_slot b ms mp).isSome := by
    rw [find_first_empty_slot_isSome_iff]
    exact hopen
  rcases hf : find_first_empty_slot b ms mp with _ | s0
  · rw [hf] at hsome; cases hsome
  · rw [find_first_empty_slot_eq_some_iff] at hf
    rcases hf with ⟨e, he, _, hempty, hocc⟩
    exact ⟨e, he, hempty, hocc⟩

/-- The board never holds more than 49 marbles. -/
theorem count_occupied_le_49 (b : Board) : count_occupied_slots b ≤ 49 := by
  have h49 : all_slots.length = 49 := by decide
  calc (all_slots.filter (fun t => (b t).isSome)).length
      ≤ all_slots.length := List.length_filter_le _ _
  _ = 49 := h49

theorem count_colour_empty (c : Colour) : count_colour (fun _ => none) c = 0 := by
  unfold count_colour
  rw [show (all_slots.filter (fun s => (fun (_ : Slot) => (none : Option Colour)) s = some c))
      = [] from List.filter_eq_nil_iff.mpr (fun a _ => by simp)]
  rfl

/-- The states reachable from an empty board: construction with a validated
colour sequence (no duplicates, 2 to 3 colours - _validate_colours allows at
most len(Colour) = 3), followed by legal apply_move steps (each move taken
from detect_all_possible_moves; apply_move itself rejects terminal states). -/
inductive Reachable : GameState → Prop where
  | init (colours : List Colour) (hnd : colours.Nodup) (hlen2 : 2 ≤ colours.length)
      (hlen3 : colours.length ≤ 3) :
      Reachable ⟨colours, fun _ => none, select_winning_line_length colours, none⟩
  | step (s s' : GameState) (m : Move) (evs : List MoveEvent) (hs : Reachable s)
      (hm : m ∈ detect_all_possible_moves s.board)
      (happ : apply_move s m = some (s', evs)) : Reachable s'

/-- The inductive invariant behind C7: the rotation always has at least two
pairwise distinct colours, every colour has at most 22 marbles placed, and
whenever the game is still running the colour to move has placed at most 21
(the supply check runs before that colour ever becomes head). -/
theorem reachable_invariant (s : GameState) (h : Reachable s) :
    2 ≤ s.colours.length ∧ s.colours.Nodup ∧
      (∀ c, count_colour s.board c ≤ 22) ∧
      (s.game_over_condition = none → ∀ mover, s.colours.head? = some mover →
        count_colour s.board mover ≤ 21) := by
  induction h with
  | init colours hnd hlen2 hlen3 =>
    refine ⟨hlen2, hnd, fun c => ?_, fun _ mover _ => ?_⟩
    · rw [count_colour_empty]; omega
    · rw [count_colour_empty]; omega
  | step s s' m evs hs hm happ ih =>
    rcases ih with ⟨hlen2, hnd, hcounts, hheadcount⟩
    have hover : s.game_over_condition = none := apply_move_some_imp_live s m _ happ
    obtain ⟨c0, c1, rest, hc⟩ : ∃ c0 c1 rest, s.colours = c0 :: c1 :: rest := by
      rcases hcl : s.colours with _ | ⟨c0, _ | ⟨c1, rest⟩⟩
      · rw [hcl] at hlen2; simp at hlen2
      · rw [hcl] at hlen2; simp at hlen2
      · exact ⟨c0, c1, rest, rfl⟩
    rcases mem_detect_imp_legal s.board m hm with ⟨hp, e, he, hempty, hocc⟩
    rcases insert_marble_spec s.board m.side m.position c0 e he hempty hocc with
      ⟨B, hins, h1, h2, h0⟩
    have hnext : s.colours[1]? = some c1 := by rw [hc]; simp
    have happ2 := apply_move_eq s m c0 c1 _ _ hover (by rw [hc]; rfl) hnext hins
    rw [happ2] at happ
    injection happ with happ'
    rw [Prod.mk.injEq] at happ'
    obtain ⟨hX, hE⟩ := happ'
    subst hX
    have hcount' : ∀ c,
        count_colour (Function.update B (rel_slot m.side m.position 0) (some c0)) c =
          count_colour s.board c + (if c0 = c then 1 else 0) :=
      fun c => count_colour_after_insert s.board B m.side m.position c0 e hp he hempty h1 h2 c
    have hheadc0 : count_colour s.board c0 ≤ 21 := hheadcount hover c0 (by rw [hc]; rfl)
    have hcounts' : ∀ c,
        count_colour (Function.update B (rel_slot m.side m.position 0) (some c0)) c ≤ 22 := by
      intro c
      rw [hcount' c]
      by_cases hcc : c0 = c
      · subst hcc
        rw [if_pos rfl]
        omega
      · rw [if_neg hcc]
        have := hcounts c
        omega
    by_cases hwin : has_winning_line s.winning_line_length
        (Function.update B (rel_slot m.side m.position 0) (some c0)) c0
    · rw [if_pos hwin]
      refine ⟨hlen2, hnd, hcounts', ?_⟩
      intro hnone
      cases hnone
    · rw [if_neg hwin]
      by_cases hfree : ((count_slots_per_colour
          (Function.update B (rel_slot m.side m.position 0) (some c0)) s.colours).map
          (·.2)).sum < NUM_SLOTS_PER_SIDE * NUM_SLOTS_PER_SIDE
      · rw [if_pos hfree]
        by_cases hsupply : count_colour
            (Function.update B (rel_slot m.side m.position 0) (some c0)) c1 =
            NUM_MARBLES_PER_COLOUR
        · rw [if_pos hsupply]
          refine ⟨hlen2, hnd, hcounts', ?_⟩
          intro hnone
          cases hnone
        · rw [if_neg hsupply]
          refine ⟨?_, ?_, hcounts', ?_⟩
          · show 2 ≤ (s.colours.rotate 1).length
            rw [List.length_rotate]
            exact hlen2
          · exact List.nodup_rotate.mpr hnd
          · intro _ mover hmover
            have hrot : s.colours.rotate 1 = (c1 :: rest) ++ [c0] := by
              rw [hc, List.rotate_cons_succ, List.rotate_zero]
            have hmv : mover = c1 := by
              rw [show ({ s with
                  board := Function.update B (rel_slot m.side m.position 0) (some c0),
                  colours := s.colours.rotate 1 } : GameState).colours
                  = s.colours.rotate 1 from rfl, hrot, List.cons_append] at hmover
              simp only [List.head?_cons] at hmover
              injection hmover with hh
              exact hh.symm
            subst hmv
            have hne22 : count_colour
                (Function.update B (rel_slot m.side m.position 0) (some c0)) mover ≠ 22 :=
              fun hcontra => hsupply (hcontra.trans rfl)
            have := hcounts' mover
            show count_colour (Function.update B (rel_slot m.side m.position 0) (some c0))
              mover ≤ 21
            omega
      · rw [if_neg hfree]
        refine ⟨hlen2, hnd, hcounts', ?_⟩
        intro hnone
        cases hnone

/-- C7: every state reachable from an empty board through legal moves has at
most 49 occupied slots, and every colour occupies at most 22 slots. -/
theorem reachable_board_bounds (s : GameState) (h : Reachable s) :
    count_occupied_slots s.board ≤ 49 ∧ ∀ c, count_colour s.board c ≤ 22 :=
  ⟨count_occupied_le_49 s.board, (reachable_invariant s h).2.2.1⟩

theorem reachable_board_bounds_witness :
    count_occupied_slots (fun _ => none) ≤ 49 ∧
      ∀ c, count_colour (fun _ => none) c ≤ 22 :=
  reachable_board_bounds ⟨[Colour.blue, Colour.green], fun _ => none, 5, none⟩
    (Reachable.init [Colour.blue, Colour.green] (by decide) (by decide) (by decide))

/-- C6: the catalog of winning lines for length 5 on the 7x7 board has
exactly 21 horizontal, 21 vertical, 9 ascending and 9 descending lines -
60 in total, with no two lines sharing their slot tuple (so modelling the
Python set as a list is faithful) - and every line is an ordered tuple of
exactly 5 slots, consecutive under its own orientation's unit step, with
all coordinates inside [0,7). Purity, determinism and idempotence of
get_all are inherent in the embedding: get_all is a mathematical function
of its argument, so every call yields this same catalog. -/
theorem get_all_5_catalog :
    ((get_all 5).filter (fun ln => ln.line_or = .horizontal)).length = 21 ∧
    ((get_all 5).filter (fun ln => ln.line_or = .vertical)).length = 21 ∧
    ((get_all 5).filter (fun ln => ln.line_or = .ascending)).length = 9 ∧
    ((get_all 5).filter (fun ln => ln.line_or = .descending)).length = 9 ∧
    (get_all 5).length = 60 ∧
    ((get_all 5).map (fun ln => ln.slots)).Nodup ∧
    (∀ ln, ln ∈ get_all 5 → ln.slots.length = 5 ∧
      (∀ s, s ∈ ln.slots → s.1 < 7 ∧ s.2 < 7) ∧
      (∀ i, i < 4 → ln.slots[i + 1]? = (ln.slots[i]?).map ln.line_or.to_neighbour)) := by
  refine ⟨by decide, by decide, by decide, by decide, by decide, by decide, ?_⟩
  decide

/-! ### Search depth (C3) -/

theorem check_optimal_fst_cases (im : Bool) (st : StratState) (r : Rating) :
    (check_optimal im st r).1.optimal = st.optimal ∨
      (check_optimal im st r).1.optimal = some r := by
  unfold check_optimal
  rcases hopt : st.optimal with _ | opt
  · rcases im with _ | _ <;> simp
  · rcases im with _ | _ <;> simp only <;> split_ifs <;> simp [hopt]

theorem check_optimal_true_of_none (im : Bool) (st : StratState) (r : Rating)
    (h : st.optimal = none) :
    (check_optimal im st r).1.optimal = some r ∧ (check_optimal im st r).2 = true := by
  unfold check_optimal
  rw [h]
  rcases im with _ | _ <;> simp

theorem check_optimal_isSome_mono (im : Bool) (st : StratState) (r : Rating)
    (h : st.optimal.isSome) : (check_optimal im st r).1.optimal.isSome := by
  unfold check_optimal
  rcases hopt : st.optimal with _ | opt
  · rw [hopt] at h
    cases h
  · rcases im with _ | _ <;> simp only <;> split_ifs <;> simp [hopt]

theorem check_optimal_true_isSome (im : Bool) (st : StratState) (r : Rating)
    (h : (check_optimal im st r).2 = true) :
    (check_optimal im st r).1.optimal = some r := by
  unfold check_optimal at h ⊢
  rcases hopt : st.optimal with _ | opt
  · rcases im with _ | _ <;> simp
  · rcases im with _ | _ <;> simp only at h ⊢ <;> split_ifs at h ⊢ <;> simp_all

/-- Every optimum produced by the node loop satisfies any predicate that
holds for all ratings the loop can ever see: direct evaluations (depth =
the loop's depth) when a node is a leaf or the frontier is reached, and
recursion results otherwise. -/
theorem ab_loop_optimal_pred (im fr : Bool)
    (recur : GameState → XQ × XQ → Option (Move × Rating)) (depth : Nat)
    (P : Rating → Prop)
    (hrec : fr = false → ∀ s ab mr, recur s ab = some mr → P mr.2) :
    ∀ nodes (st : StratState) best st1 best1,
      (∀ n, n ∈ nodes → (n.is_leaf || fr) = true → ∀ q, P ⟨q, depth⟩) →
      (∀ r, st.optimal = some r → P r) →
      ab_loop im fr recur depth nodes st best = some (st1, best1) →
      ∀ r, st1.optimal = some r → P r := by
  intro nodes
  induction nodes with
  | nil =>
    intro st best st1 best1 _ hst h r hr
    unfold ab_loop at h
    injection h with h
    rw [Prod.mk.injEq] at h
    rw [← h.1] at hr
    exact hst r hr
  | cons node rest ih =>
    intro st best st1 best1 hleaf hst h r hr
    unfold ab_loop at h
    rcases hcur : (if node.is_leaf || fr then
        some (⟨evaluate im node, depth⟩ : Rating)
      else (recur node.target (st.alpha, st.beta)).map (·.2)) with _ | cr
    · rw [hcur] at h
      cases h
    · rw [hcur] at h
      simp only at h
      have hcrP : P cr := by
        by_cases hb : (node.is_leaf || fr) = true
        · rw [if_pos hb] at hcur
          injection hcur with hcur
          rw [← hcur]
          exact hleaf node (List.mem_cons_self _ _) hb _
        · rw [if_neg hb] at hcur
          rcases Option.map_eq_some'.mp hcur with ⟨mr, hmr, hmr2⟩
          have hfr : fr = false := by
            rcases hf : fr with _ | _
            · rfl
            · rw [hf, Bool.or_true] at hb
              exact absurd rfl hb
          rw [← hmr2]
          exact hrec hfr _ _ _ hmr
      have hst1P : ∀ r, (check_optimal im st cr).1.optimal = some r → P r := by
        intro r hr
        rcases check_optimal_fst_cases im st cr with hcase | hcase
        · rw [hcase] at hr
          exact hst r hr
        · rw [hcase] at hr
          injection hr with hr
          rw [← hr]
          exact hcrP
      rcases hco : check_optimal im st cr with ⟨stA, took⟩
      rw [hco] at h
      simp only at h
      rw [hco] at hst1P
      simp only at hst1P
      split at h
      · injection h with h
        rw [Prod.mk.injEq] at h
        rw [← h.1] at hr
        exact hst1P r hr
      · exact ih _ _ _ _ (fun n hn => hleaf n (List.mem_cons_of_mem _ hn)) hst1P h r hr

/-- Any rating returned by _apply was determined at a depth between the
call's depth and max_depth. -/
theorem ab_apply_rating_depth (md : Nat) : ∀ (fuel : Nat) (s : GameState) (depth : Nat)
    (ab : XQ × XQ) (m : Move) (r : Rating), depth ≤ md →
    ab_apply md fuel s depth ab = some (m, r) → depth ≤ r.depth ∧ r.depth ≤ md := by
  intro fuel
  induction fuel with
  | zero =>
    intro s depth ab m r _ h
    cases h
  | succ fuel ih =>
    intro s depth ab m r hdep h
    unfold ab_apply at h
    rcases hnodes : (detect_all_possible_moves s.board).mapM (fun mv =>
        (apply_move s mv).map (fun p => Node.mk mv p.1)) with _ | nodes
    · rw [hnodes] at h
      cases h
    · rw [hnodes] at h
      simp only [Option.bind_eq_bind, Option.some_bind] at h
      rcases hloop : ab_loop (depth % 2 == 1) (depth == md)
          (fun s1 ab1 => ab_apply md fuel s1 (depth + 1) ab1) depth
          (if depth < md then sort_nodes (depth % 2 == 1) nodes else nodes)
          ⟨ab.1, ab.2, none⟩ none with _ | p
      · rw [hloop] at h
        cases h
      · rw [hloop] at h
        simp only [Option.bind_eq_bind, Option.some_bind] at h
        rcases hbest : p.2 with _ | mv
        · rw [hbest] at h
          cases h
        · rw [hbest] at h
          rcases hopt : p.1.optimal with _ | opt
          · rw [hopt] at h
            cases h
          · rw [hopt] at h
            simp only [Option.some_bind] at h
            injection h with h
            rw [Prod.mk.injEq] at h
            have hP := ab_loop_optimal_pred (depth % 2 == 1) (depth == md)
              (fun s1 ab1 => ab_apply md fuel s1 (depth + 1) ab1) depth
              (fun q => depth ≤ q.depth ∧ q.depth ≤ md)
              (fun hfr s1 ab1 mr hmr => by
                have hne : depth ≠ md := by
                  intro hcontra
                  rw [hcontra] at hfr
                  simp at hfr
                have := ih s1 (depth + 1) ab1 mr.1 mr.2 (by omega) (by
                  rw [← hmr])
                exact ⟨by omega, this.2⟩)
              _ ⟨ab.1, ab.2, none⟩ none p.1 p.2
              (fun n hn hb q => ⟨Nat.le_refl depth, hdep⟩)
              (fun r hr => by cases hr)
              (by rw [hloop])
              opt hopt
            rw [← h.2]
            exact hP

theorem mapM_isSome {α β : Type u} (f : α → Option β) (l : List α)
    (h : ∀ x, x ∈ l → (f x).isSome = true) : (l.mapM f).isSome = true := by
  induction l with
  | nil => rw [List.mapM_nil]; rfl
  | cons a l ih =>
    rw [List.mapM_cons]
    rcases hfa : f a with _ | b
    · have hx := h a (List.mem_cons_self _ _)
      rw [hfa] at hx
      cases hx
    · rcases hfl : l.mapM f with _ | bs
      · have hx := ih (fun x hx => h x (List.mem_cons_of_mem _ hx))
        rw [hfl] at hx
        cases hx
      · simp [hfa, hfl]

theorem mapM_mem {α β : Type u} (f : α → Option β) (l : List α) (ys : List β)
    (h : l.mapM f = some ys) : ys.length = l.length ∧
      ∀ y, y ∈ ys → ∃ x, x ∈ l ∧ f x = some y := by
  induction l generalizing ys with
  | nil =>
    rw [List.mapM_nil] at h
    injection h with h
    rw [← h]
    exact ⟨rfl, fun y hy => by cases hy⟩
  | cons a l ih =>
    rw [List.mapM_cons] at h
    rcases hfa : f a with _ | b
    · rw [hfa] at h
      simp only [Option.bind_eq_bind, Option.none_bind] at h
      cases h
    · rw [hfa] at h
      simp only [Option.bind_eq_bind, Option.some_bind] at h
      rcases hfl : l.mapM f with _ | bs
      · rw [hfl] at h
        simp only [Option.none_bind] at h
        cases h
      · rw [hfl] at h
        simp only [Option.some_bind, Option.pure_def, Option.some.injEq] at h
        rcases ih bs hfl with ⟨hlen, hmem⟩
        rw [← h]
        refine ⟨by rw [List.length_cons, List.length_cons, hlen], fun y hy => ?_⟩
        rcases List.mem_cons.mp hy with rfl | hy
        · exact ⟨a, List.mem_cons_self _ _, hfa⟩
        · rcases hmem y hy with ⟨x, hx, hfx⟩
          exact ⟨x, List.mem_cons_of_mem _ hx, hfx⟩

theorem mem_stable_insert {α : Type u} (lt : α → α → Bool) (x y : α) (l : List α) :
    y ∈ stable_insert lt x l ↔ y = x ∨ y ∈ l := by
  induction l with
  | nil => simp [stable_insert]
  | cons a l ih =>
    unfold stable_insert
    by_cases h : lt a x
    · rw [if_pos h]
      simp only [List.mem_cons, ih]
      tauto
    · rw [if_neg h]
      simp only [List.mem_cons]

theorem mem_stable_sort {α : Type u} (lt : α → α → Bool) (y : α) (l : List α) :
    y ∈ stable_sort lt l ↔ y ∈ l := by
  induction l with
  | nil => simp [stable_sort]
  | cons a l ih =>
    unfold stable_sort
    rw [mem_stable_insert, ih, List.mem_cons]

theorem length_stable_insert {α : Type u} (lt : α → α → Bool) (x : α) (l : List α) :
    (stable_insert lt x l).length = l.length + 1 := by
  induction l with
  | nil => rfl
  | cons a l ih =>
    unfold stable_insert
    by_cases h : lt a x
    · rw [if_pos h, List.length_cons, ih, List.length_cons]
    · rw [if_neg h, List.length_cons, List.length_cons]

theorem length_stable_sort {α : Type u} (lt : α → α → Bool) (l : List α) :
    (stable_sort lt l).length = l.length := by
  induction l with
  | nil => rfl
  | cons a l ih =>
    unfold stable_sort
    rw [length_stable_insert, ih, List.length_cons]

theorem mem_sort_nodes (im : Bool) (n : Node) (nodes : List Node)
    (h : n ∈ sort_nodes im nodes) : n ∈ nodes := by
  unfold sort_nodes at h
  rcases List.mem_map.mp h with ⟨p, hp, hfst⟩
  rw [mem_stable_sort] at hp
  rcases List.mem_map.mp hp with ⟨n0, hn0, hq⟩
  rw [← hfst, ← hq]
  exact hn0

theorem sort_nodes_ne_nil (im : Bool) (nodes : List Node) (h : nodes ≠ []) :
    sort_nodes im nodes ≠ [] := by
  intro hcontra
  apply h
  have hlen : (sort_nodes im nodes).length = nodes.length := by
    unfold sort_nodes
    rw [List.length_map, length_stable_sort, List.length_map]
  rw [hcontra] at hlen
  rcases hn : nodes with _ | ⟨a, l⟩
  · rfl
  · rw [hn] at hlen
    simp at hlen

theorem mem_all_slots_iff (t : Slot) : t ∈ all_slots ↔ t.1 < 7 ∧ t.2 < 7 := by
  unfold all_slots
  simp only [List.mem_flatMap, List.mem_map, List.mem_range]
  constructor
  · rintro ⟨v, hv, h, hh, rfl⟩
    exact ⟨hh, hv⟩
  · rintro ⟨h1, h2⟩
    exact ⟨t.2, h2, t.1, h1, rfl⟩

theorem exists_empty_slot_of_not_full (b : Board) (hb : count_occupied_slots b < 49) :
    ∃ t, t ∈ all_slots ∧ b t = none := by
  by_contra hcontra
  push_neg at hcontra
  have hall : all_slots.filter (fun t => (b t).isSome) = all_slots := by
    refine List.filter_eq_self.mpr (fun t ht => ?_)
    rcases hbt : b t with _ | c
    · exact absurd hbt (hcontra t ht)
    · rfl
  unfold count_occupied_slots at hb
  rw [hall] at hb
  have h49 : all_slots.length = 49 := by decide
  omega

/-- A board with an empty slot admits a possible move (the empty slot's
column is open from the TOP). -/
theorem detect_ne_nil_of_not_full (b : Board) (hb : count_occupied_slots b < 49) :
    detect_all_possible_moves b ≠ [] := by
  rcases exists_empty_slot_of_not_full b hb with ⟨t, hmem, hempty⟩
  rcases (mem_all_slots_iff t).mp hmem with ⟨h1, h2⟩
  have hmove : Move.mk .top t.1 ∈ detect_all_possible_moves b := by
    rw [mem_detect_iff]
    refine ⟨h1, t.2, h2, ?_⟩
    show b (t.1, t.2) = none
    exact hempty
  intro hcontra
  rw [hcontra] at hmove
  cases hmove

theorem count_colour_le_occupied (b : Board) (c : Colour) :
    count_colour b c ≤ count_occupied_slots b := by
  unfold count_colour count_occupied_slots
  rw [← List.countP_eq_length_filter, ← List.countP_eq_length_filter]
  refine List.countP_mono_left (fun t _ h => ?_)
  rw [decide_eq_true_iff] at h
  rw [h]
  rfl

/-- Every line of the 5-line catalog consists of pairwise distinct in-range
slots. -/
theorem get_all_5_slots_wf : ∀ ln, ln ∈ get_all 5 →
    ln.slots.Nodup ∧ ∀ t, t ∈ ln.slots → t.1 < 7 ∧ t.2 < 7 := by decide

theorem match_degree_le_count (b : Board) (c : Colour) (ln : SlotsInLine)
    (hnd : ln.slots.Nodup) (hin : ∀ t, t ∈ ln.slots → t.1 < 7 ∧ t.2 < 7) :
    match_degree b c ln ≤ count_colour b c := by
  unfold match_degree count_colour
  have hsub : ln.slots ⊆ all_slots := fun t ht => (mem_all_slots_iff t).mpr (hin t ht)
  have hsp : ln.slots.Subperm all_slots := hnd.subperm hsub
  exact (hsp.filter _).length_le

/-- A colour with fewer than 5 marbles on the board cannot have a winning
5-line. -/
theorem no_winning_line_of_few (b : Board) (c : Colour) (h : count_colour b c < 5) :
    has_winning_line 5 b c = false := by
  unfold has_winning_line
  rw [List.any_eq_false]
  intro ln hln
  have hwf := get_all_5_slots_wf ln hln
  have hle := match_degree_le_count b c ln hwf.1 hwf.2
  simp only [beq_iff_eq]
  omega

/-- Every marble present after _insert_marble is the mover's new marble or a
marble that was already somewhere on the board. -/
theorem update_line_colours (b B : Board) (side : Side) (p : Nat) (mover : Colour) (e : Nat)
    (h1 : ∀ i, 1 ≤ i → i ≤ e → B (rel_slot side p i) = b (rel_slot side p (i - 1)))
    (h2 : ∀ t, (∀ i, i ≤ e → t ≠ rel_slot side p i) → B t = b t) (he : e < 7) :
    ∀ t c, (Function.update B (rel_slot side p 0) (some mover)) t = some c →
      c = mover ∨ ∃ t', b t' = some c := by
  intro t c htc
  by_cases hline : ∀ i, i ≤ e → t ≠ rel_slot side p i
  · rw [Function.update_noteq (hline 0 (by omega)), h2 t hline] at htc
    exact Or.inr ⟨t, htc⟩
  · push_neg at hline
    rcases hline with ⟨i, hi, rfl⟩
    rcases Nat.eq_zero_or_pos i with rfl | hipos
    · rw [Function.update_same] at htc
      injection htc with htc
      exact Or.inl htc.symm
    · rw [Function.update_noteq (by
          intro hcontra
          have := rel_slot_inj side p (by omega) (by omega) hcontra
          omega), h1 i hipos hi] at htc
      exact Or.inr ⟨_, htc⟩

/-- apply_move on a live state whose colour sequence has no second entry:
the win and board-full branches still return, the rotation branch fails. -/
theorem apply_move_eq_nonext (s : GameState) (m : Move) (mover : Colour) (B : Board)
    (evs : List MoveEvent)
    (hover : s.game_over_condition = none)
    (hhead : s.colours.head? = some mover)
    (hnext : s.colours[1]? = none)
    (hins : insert_marble s.board m.side m.position mover = some (B, evs)) :
    apply_move s m =
      if has_winning_line s.winning_line_length B mover then
        some ({ s with board := B, game_over_condition := some ⟨some mover⟩ }, evs)
      else if ((count_slots_per_colour B s.colours).map (·.2)).sum <
          NUM_SLOTS_PER_SIDE * NUM_SLOTS_PER_SIDE then none
      else some ({ s with board := B, game_over_condition := some ⟨none⟩ }, evs) := by
  unfold apply_move
  rw [hover]
  simp only [Option.isSome_none, Bool.false_eq_true, if_false, hhead, hins, hnext,
    Option.bind_eq_bind, Option.some_bind, Option.none_bind, Option.pure_def]

/-- Decomposition of a successful apply_move: the state was live, the head
colour moved, the new board is the shifted board with the mover's marble on
the edge slot, the colours either stayed (game over) or rotated, a successor
that is still live rotated and passed the free-slot check, and a successor
that is over hit one of the three terminal reasons. -/
theorem apply_move_elim (s : GameState) (m : Move) (s' : GameState) (evs : List MoveEvent)
    (h : apply_move s m = some (s', evs)) :
    ∃ mover B e, e < 7 ∧
      s.game_over_condition = none ∧
      s.colours.head? = some mover ∧
      s.board (rel_slot m.side m.position e) = none ∧
      (∀ j, j < e → (s.board (rel_slot m.side m.position j)).isSome = true) ∧
      (∀ i, 1 ≤ i → i ≤ e → B (rel_slot m.side m.position i) =
        s.board (rel_slot m.side m.position (i - 1))) ∧
      (∀ t, (∀ i, i ≤ e → t ≠ rel_slot m.side m.position i) → B t = s.board t) ∧
      s'.board = Function.update B (rel_slot m.side m.position 0) (some mover) ∧
      s'.winning_line_length = s.winning_line_length ∧
      (s'.colours = s.colours ∨ s'.colours = s.colours.rotate 1) ∧
      (s'.game_over_condition = none → s'.colours = s.colours.rotate 1 ∧
        ((count_slots_per_colour s'.board s.colours).map (·.2)).sum <
          NUM_SLOTS_PER_SIDE * NUM_SLOTS_PER_SIDE) ∧
      (s'.game_over_condition.isSome = true →
        has_winning_line s.winning_line_length s'.board mover = true ∨
        ¬ ((count_slots_per_colour s'.board s.colours).map (·.2)).sum <
          NUM_SLOTS_PER_SIDE * NUM_SLOTS_PER_SIDE ∨
        ∃ next, s.colours[1]? = some next ∧
          count_colour s'.board next = NUM_MARBLES_PER_COLOUR) := by
  have hover : s.game_over_condition = none := apply_move_some_imp_live s m _ h
  rcases hhead : s.colours.head? with _ | mover
  · exfalso
    unfold apply_move at h
    rw [hover] at h
    simp only [Option.isSome_none, Bool.false_eq_true, if_false, hhead,
      Option.bind_eq_bind, Option.none_bind] at h
    exact Option.noConfusion h
  rcases hf : find_first_empty_slot s.board m.side m.position with _ | s0
  · exfalso
    have hins0 : insert_marble s.board m.side m.position mover = none := by
      unfold insert_marble
      rw [hf]
      rfl
    unfold apply_move at h
    rw [hover] at h
    simp only [Option.isSome_none, Bool.false_eq_true, if_false, hhead, hins0,
      Option.bind_eq_bind, Option.some_bind, Option.none_bind] at h
    exact Option.noConfusion h
  rcases (find_first_empty_slot_eq_some_iff s.board m.side m.position s0).mp hf with
    ⟨e, he, hs0, hempty, hocc⟩
  rcases insert_marble_spec s.board m.side m.position mover e he hempty hocc with
    ⟨B, hins, h1, h2, h0⟩
  refine ⟨mover, B, e, he, hover, rfl, hempty, hocc, h1, h2, ?_⟩
  rcases hnx : s.colours[1]? with _ | next
  · rw [apply_move_eq_nonext s m mover _ _ hover hhead hnx hins] at h
    by_cases hwin : has_winning_line s.winning_line_length
        (Function.update B (rel_slot m.side m.position 0) (some mover)) mover
    · rw [if_pos hwin] at h
      injection h with h'
      rw [Prod.mk.injEq] at h'
      obtain ⟨hX, hE⟩ := h'
      rw [← hX]
      refine ⟨rfl, rfl, Or.inl rfl, ?_, ?_⟩
      · intro hgoc
        exact Option.noConfusion hgoc
      · intro _
        exact Or.inl hwin
    · rw [if_neg hwin] at h
      by_cases hfree : ((count_slots_per_colour
          (Function.update B (rel_slot m.side m.position 0) (some mover)) s.colours).map
          (·.2)).sum < NUM_SLOTS_PER_SIDE * NUM_SLOTS_PER_SIDE
      · rw [if_pos hfree] at h
        exact Option.noConfusion h
      · rw [if_neg hfree] at h
        injection h with h'
        rw [Prod.mk.injEq] at h'
        obtain ⟨hX, hE⟩ := h'
        rw [← hX]
        refine ⟨rfl, rfl, Or.inl rfl, ?_, ?_⟩
        · intro hgoc
          exact Option.noConfusion hgoc
        · intro _
          exact Or.inr (Or.inl hfree)
  · rw [apply_move_eq s m mover next _ _ hover hhead hnx hins] at h
    by_cases hwin : has_winning_line s.winning_line_length
        (Function.update B (rel_slot m.side m.position 0) (some mover)) mover
    · rw [if_pos hwin] at h
      injection h with h'
      rw [Prod.mk.injEq] at h'
      obtain ⟨hX, hE⟩ := h'
      rw [← hX]
      refine ⟨rfl, rfl, Or.inl rfl, ?_, ?_⟩
      · intro hgoc
        exact Option.noConfusion hgoc
      · intro _
        exact Or.inl hwin
    · rw [if_neg hwin] at h
      by_cases hfree : ((count_slots_per_colour
          (Function.update B (rel_slot m.side m.position 0) (some mover)) s.colours).map
          (·.2)).sum < NUM_SLOTS_PER_SIDE * NUM_SLOTS_PER_SIDE
      · rw [if_pos hfree] at h
        by_cases hsupply : count_colour
            (Function.update B (rel_slot m.side m.position 0) (some mover)) next =
            NUM_MARBLES_PER_COLOUR
        · rw [if_pos hsupply] at h
          injection h with h'
          rw [Prod.mk.injEq] at h'
          obtain ⟨hX, hE⟩ := h'
          rw [← hX]
          refine ⟨rfl, rfl, Or.inl rfl, ?_, ?_⟩
          · intro hgoc
            exact Option.noConfusion hgoc
          · intro _
            exact Or.inr (Or.inr ⟨next, rfl, hsupply⟩)
        · rw [if_neg hsupply] at h
          injection h with h'
          rw [Prod.mk.injEq] at h'
          obtain ⟨hX, hE⟩ := h'
          rw [← hX]
          refine ⟨rfl, rfl, Or.inr rfl, ?_, ?_⟩
          · intro _
            exact ⟨rfl, hfree⟩
          · intro hgoc
            have h9 : s.game_over_condition.isSome = true := hgoc
            rw [hover] at h9
            simp at h9
      · rw [if_neg hfree] at h
        injection h with h'
        rw [Prod.mk.injEq] at h'
        obtain ⟨hX, hE⟩ := h'
        rw [← hX]
        refine ⟨rfl, rfl, Or.inl rfl, ?_, ?_⟩
        · intro hgoc
          exact Option.noConfusion hgoc
        · intro _
          exact Or.inr (Or.inl hfree)

/-- apply_move succeeds on every move detected on a live state with at
least two colours. -/
theorem apply_move_isSome (s : GameState) (m : Move)
    (hover : s.game_over_condition = none) (hlen : 2 ≤ s.colours.length)
    (hm : m ∈ detect_all_possible_moves s.board) :
    (apply_move s m).isSome = true := by
  obtain ⟨c0, c1, rest, hc⟩ : ∃ c0 c1 rest, s.colours = c0 :: c1 :: rest := by
    rcases hcl : s.colours with _ | ⟨c0, _ | ⟨c1, rest⟩⟩
    · rw [hcl] at hlen; simp at hlen
    · rw [hcl] at hlen; simp at hlen
    · exact ⟨c0, c1, rest, rfl⟩
  rcases mem_detect_imp_legal s.board m hm with ⟨hp, e, he, hempty, hocc⟩
  rcases insert_marble_spec s.board m.side m.position c0 e he hempty hocc with
    ⟨B, hins, _, _, _⟩
  rw [apply_move_eq s m c0 c1 _ _ hover (by rw [hc]; rfl) (by rw [hc]; simp) hins]
  split_ifs <;> rfl

/-- The class of states the AI search actually runs on: at least two
pairwise distinct colours, every marble of one of the game's colours, and a
free slot whenever the game is still running. -/
def good_state (s : GameState) : Prop :=
  2 ≤ s.colours.length ∧ s.colours.Nodup ∧
    (∀ t c, s.board t = some c → c ∈ s.colours) ∧
    (s.game_over_condition = none → count_occupied_slots s.board < 49)

theorem apply_move_good (s : GameState) (m : Move) (s' : GameState) (evs : List MoveEvent)
    (h : apply_move s m = some (s', evs)) (hg : good_state s) : good_state s' := by
  obtain ⟨hlen, hnd, hwf, _⟩ := hg
  rcases apply_move_elim s m s' evs h with
    ⟨mover, B, e, he, hover, hhead, hempty, hocc, h1, h2, hboard, hwl, hrot, hlive, _⟩
  have hmover : mover ∈ s.colours := by
    rcases hcl : s.colours with _ | ⟨a, l⟩
    · rw [hcl] at hhead; cases hhead
    · rw [hcl] at hhead
      simp only [List.head?_cons, Option.some.injEq] at hhead
      rw [← hhead]
      exact List.mem_cons_self a l
  have hwf' : ∀ t c, s'.board t = some c → c ∈ s.colours := by
    intro t c htc
    rw [hboard] at htc
    rcases update_line_colours s.board B m.side m.position mover e h1 h2 he t c htc with
      rfl | ⟨t', ht'⟩
    · exact hmover
    · exact hwf t' c ht'
  have hsub : ∀ c, c ∈ s.colours ↔ c ∈ s'.colours := by
    intro c
    rcases hrot with hr | hr
    · rw [hr]
    · rw [hr, List.mem_rotate]
  refine ⟨?_, ?_, ?_, ?_⟩
  · rcases hrot with hr | hr
    · rw [hr]; exact hlen
    · rw [hr, List.length_rotate]; exact hlen
  · rcases hrot with hr | hr
    · rw [hr]; exact hnd
    · rw [hr]; exact List.nodup_rotate.mpr hnd
  · intro t c htc
    exact (hsub c).mp (hwf' t c htc)
  · intro hgoc
    have hfr := (hlive hgoc).2
    rw [sum_counts_eq_occupied s'.board s.colours hnd hwf'] at hfr
    exact hfr

/-- On a nearly empty board (at most 3 occupied slots after the insertion)
no move can end the game: no winning 5-line fits, the board is far from
full, and no colour is near marble exhaustion. -/
theorem apply_move_live_of_few (s : GameState) (m : Move) (s' : GameState)
    (evs : List MoveEvent) (h : apply_move s m = some (s', evs))
    (hp : m.position < 7) (hwll : s.winning_line_length = 5)
    (hnd : s.colours.Nodup) (hwf : ∀ t c, s.board t = some c → c ∈ s.colours)
    (hfew : count_occupied_slots s.board + 1 < 5) :
    s'.game_over_condition = none := by
  rcases apply_move_elim s m s' evs h with
    ⟨mover, B, e, he, hover, hhead, hempty, hoccj, h1, h2, hboard, hwl, hrot, hlive, hterm⟩
  rcases hgoc : s'.game_over_condition with _ | g
  · rfl
  exfalso
  have hsome : s'.game_over_condition.isSome = true := by rw [hgoc]; rfl
  have hocc' : count_occupied_slots s'.board = count_occupied_slots s.board + 1 := by
    rw [hboard]
    exact count_occupied_after_insert s.board B m.side m.position mover e hp he hempty h1 h2
  have hccount : ∀ c, count_colour s'.board c ≤ count_occupied_slots s'.board :=
    fun c => count_colour_le_occupied s'.board c
  have hmover : mover ∈ s.colours := by
    rcases hcl : s.colours with _ | ⟨a, l⟩
    · rw [hcl] at hhead; cases hhead
    · rw [hcl] at hhead
      simp only [List.head?_cons, Option.some.injEq] at hhead
      rw [← hhead]
      exact List.mem_cons_self a l
  have hwf' : ∀ t c, s'.board t = some c → c ∈ s.colours := by
    intro t c htc
    rw [hboard] at htc
    rcases update_line_colours s.board B m.side m.position mover e h1 h2 he t c htc with
      rfl | ⟨t', ht'⟩
    · exact hmover
    · exact hwf t' c ht'
  rcases hterm hsome with hwin | hfull | ⟨next, hnx, h22⟩
  · rw [hwll] at hwin
    have hcm : count_colour s'.board mover < 5 := by
      have := hccount mover
      omega
    rw [no_winning_line_of_few s'.board mover hcm] at hwin
    cases hwin
  · apply hfull
    rw [sum_counts_eq_occupied s'.board s.colours hnd hwf', hocc']
    show count_occupied_slots s.board + 1 < 49
    omega
  · have hle := hccount next
    rw [h22, hocc'] at hle
    have h22' : (22 : Nat) ≤ count_occupied_slots s.board + 1 := hle
    omega

theorem check_optimal_false_fst (im : Bool) (st : StratState) (r : Rating)
    (h : (check_optimal im st r).2 = false) : (check_optimal im st r).1 = st := by
  unfold check_optimal at h ⊢
  rcases hopt : st.optimal with _ | opt
  · rw [hopt] at h
    rcases im with _ | _ <;> simp at h
  · rw [hopt] at h
    rcases im with _ | _ <;> simp only at h ⊢ <;> split_ifs at h ⊢ <;> simp_all

/-- The node loop never fails when every recursive call it can make
succeeds, and it elects an optimal move as soon as it has seen any node. -/
theorem ab_loop_succeeds (im fr : Bool)
    (recur : GameState → XQ × XQ → Option (Move × Rating)) (depth : Nat) :
    ∀ (nodes : List Node) (st : StratState) (best : Option Move),
      (∀ n, n ∈ nodes → (n.is_leaf || fr) = false →
        ∀ ab, (recur n.target ab).isSome = true) →
      st.optimal.isSome = best.isSome →
      ∃ st1 best1, ab_loop im fr recur depth nodes st best = some (st1, best1) ∧
        st1.optimal.isSome = best1.isSome ∧
        (best.isSome = true ∨ nodes ≠ [] → best1.isSome = true) := by
  intro nodes
  induction nodes with
  | nil =>
    intro st best _ hinv
    refine ⟨st, best, rfl, hinv, fun hc => ?_⟩
    rcases hc with hc | hc
    · exact hc
    · exact absurd rfl hc
  | cons node rest ih =>
    intro st best hrec hinv
    have hcr : ∃ cr, (if node.is_leaf || fr then
        some (⟨evaluate im node, depth⟩ : Rating)
      else (recur node.target (st.alpha, st.beta)).map (fun x => x.2)) = some cr := by
      by_cases hb : (node.is_leaf || fr) = true
      · exact ⟨_, by rw [if_pos hb]⟩
      · rw [if_neg hb]
        have hx := hrec node (List.mem_cons_self _ _) (Bool.eq_false_iff.mpr hb)
          (st.alpha, st.beta)
        rcases hy : recur node.target (st.alpha, st.beta) with _ | mr
        · rw [hy] at hx
          cases hx
        · exact ⟨mr.2, rfl⟩
    rcases hcr with ⟨cr, hcr⟩
    rcases hco : check_optimal im st cr with ⟨stA, took⟩
    have hstep : ab_loop im fr recur depth (node :: rest) st best =
        (if took && can_prune stA then some (stA, if took then some node.move else best)
         else ab_loop im fr recur depth rest stA
           (if took then some node.move else best)) := by
      conv_lhs => unfold ab_loop
      rw [hcr]
      simp only
      rw [hco]
    cases took with
    | false =>
      have hfst : (check_optimal im st cr).1 = st :=
        check_optimal_false_fst im st cr (by rw [hco])
      rw [hco] at hfst
      simp only at hfst
      have hoptS : st.optimal.isSome = true := by
        rcases hopt : st.optimal with _ | o
        · have h2 := (check_optimal_true_of_none im st cr hopt).2
          rw [hco] at h2
          simp at h2
        · rfl
      have hbestS : best.isSome = true := by rw [← hinv]; exact hoptS
      rw [hstep, if_neg (by simp)]
      rcases ih stA best (fun n hn => hrec n (List.mem_cons_of_mem _ hn))
          (by rw [hfst]; exact hinv) with ⟨st1, best1, hloop, hinv1, hb1⟩
      refine ⟨st1, best1, ?_, hinv1, fun _ => hb1 (Or.inl hbestS)⟩
      exact hloop
    | true =>
      have hoptA : (check_optimal im st cr).1.optimal = some cr :=
        check_optimal_true_isSome im st cr (by rw [hco])
      rw [hco] at hoptA
      simp only at hoptA
      rw [hstep]
      by_cases hpr : can_prune stA = true
      · rw [if_pos (by simp [hpr])]
        refine ⟨stA, some node.move, ?_, ?_, fun _ => rfl⟩
        · rfl
        · rw [hoptA]
          rfl
      · rw [if_neg (by simp [hpr])]
        rcases ih stA (some node.move) (fun n hn => hrec n (List.mem_cons_of_mem _ hn))
            (by rw [hoptA]; rfl) with ⟨st1, best1, hloop, hinv1, hb1⟩
        refine ⟨st1, best1, ?_, hinv1, fun _ => hb1 (Or.inl rfl)⟩
        exact hloop

/-- On a good live state, _apply given enough fuel (the Python recursion
needs none) returns a move and a rating. -/
theorem ab_apply_succeeds (md : Nat) : ∀ (fuel : Nat) (s : GameState) (depth : Nat)
    (ab : XQ × XQ), depth ≤ md → md < depth + fuel → good_state s →
    s.game_over_condition = none →
    (ab_apply md fuel s depth ab).isSome = true := by
  intro fuel
  induction fuel with
  | zero =>
    intro s depth ab h1 h2 _ _
    omega
  | succ fuel ih =>
    intro s depth ab hdep hfuel hg hlive
    have hocc : count_occupied_slots s.board < 49 := hg.2.2.2 hlive
    have hdet : detect_all_possible_moves s.board ≠ [] := detect_ne_nil_of_not_full _ hocc
    have hms : ((detect_all_possible_moves s.board).mapM (fun mv =>
        (apply_move s mv).map (fun p => Node.mk mv p.1))).isSome = true := by
      refine mapM_isSome _ _ (fun mv hmv => ?_)
      have hsome := apply_move_isSome s mv hlive hg.1 hmv
      rcases ha : apply_move s mv with _ | p
      · rw [ha] at hsome
        cases hsome
      · rfl
    rcases hnod : (detect_all_possible_moves s.board).mapM (fun mv =>
        (apply_move s mv).map (fun p => Node.mk mv p.1)) with _ | nodes
    · rw [hnod] at hms
      cases hms
    rcases mapM_mem _ _ _ hnod with ⟨hlen, hmem⟩
    have hne : nodes ≠ [] := by
      intro hc
      apply hdet
      rw [hc] at hlen
      rcases hd : detect_all_possible_moves s.board with _ | ⟨a, l⟩
      · rfl
      · rw [hd] at hlen
        simp at hlen
    have hmem2 : ∀ n, n ∈ (if depth < md then sort_nodes (depth % 2 == 1) nodes
        else nodes) → n ∈ nodes := by
      intro n hn
      by_cases hd : depth < md
      · rw [if_pos hd] at hn
        exact mem_sort_nodes _ _ _ hn
      · rw [if_neg hd] at hn
        exact hn
    have hne2 : (if depth < md then sort_nodes (depth % 2 == 1) nodes else nodes) ≠ [] := by
      by_cases hd : depth < md
      · rw [if_pos hd]
        exact sort_nodes_ne_nil _ _ hne
      · rw [if_neg hd]
        exact hne
    have hrec : ∀ n, n ∈ (if depth < md then sort_nodes (depth % 2 == 1) nodes
        else nodes) → (n.is_leaf || (depth == md)) = false →
        ∀ ab1, ((fun s1 ab1 => ab_apply md fuel s1 (depth + 1) ab1) n.target ab1).isSome
          = true := by
      intro n hn hlf ab1
      rcases hmem n (hmem2 n hn) with ⟨mv, hmv, hfn⟩
      rcases Option.map_eq_some'.mp hfn with ⟨p, hp, hpn⟩
      have hgood' : good_state p.1 := apply_move_good s mv p.1 p.2 hp hg
      have hlf2 := Bool.or_eq_false_iff.mp hlf
      have htar : n.target = p.1 := by rw [← hpn]
      have hlive' : p.1.game_over_condition = none := by
        have hleaf : n.is_leaf = false := hlf2.1
        unfold Node.is_leaf at hleaf
        rw [htar] at hleaf
        exact Option.not_isSome_iff_eq_none.mp (fun hc => by rw [hleaf] at hc; cases hc)
      have hne3 : depth ≠ md := by
        intro hcontra
        have h4 := hlf2.2
        rw [hcontra] at h4
        simp at h4
      rw [htar]
      exact ih p.1 (depth + 1) ab1 (by omega) (by omega) hgood' hlive'
    rcases ab_loop_succeeds (depth % 2 == 1) (depth == md)
        (fun s1 ab1 => ab_apply md fuel s1 (depth + 1) ab1) depth
        (if depth < md then sort_nodes (depth % 2 == 1) nodes else nodes)
        ⟨ab.1, ab.2, none⟩ none hrec rfl with ⟨st1, best1, hloop, hinv1, hb1⟩
    have hb : best1.isSome = true := hb1 (Or.inr hne2)
    have hov : st1.optimal.isSome = true := by rw [hinv1]; exact hb
    rcases hbv : best1 with _ | mv1
    · simp [hbv] at hb
    rcases hopt : st1.optimal with _ | opt1
    · simp [hopt] at hov
    unfold ab_apply
    rw [hnod]
    simp only [Option.bind_eq_bind, Option.some_bind]
    rw [hloop]
    simp only [Option.some_bind]
    rw [hbv, hopt]
    simp only [Option.some_bind]
    rfl

/-- Below the frontier, on a state none of whose legal moves ends the game,
the returned rating was determined at a strictly greater depth. -/
theorem ab_apply_depth_exact (md fuel : Nat) (s : GameState) (depth : Nat) (ab : XQ × XQ)
    (m : Move) (r : Rating) (hdep : depth < md)
    (hchild : ∀ mv s1 evs1, mv ∈ detect_all_possible_moves s.board →
      apply_move s mv = some (s1, evs1) → s1.game_over_condition = none)
    (h : ab_apply md fuel s depth ab = some (m, r)) :
    depth < r.depth ∧ r.depth ≤ md := by
  rcases fuel with _ | fuel
  · cases h
  unfold ab_apply at h
  rcases hnodes : (detect_all_possible_moves s.board).mapM (fun mv =>
      (apply_move s mv).map (fun p => Node.mk mv p.1)) with _ | nodes
  · rw [hnodes] at h
    cases h
  rw [hnodes] at h
  simp only [Option.bind_eq_bind, Option.some_bind] at h
  rcases hloop : ab_loop (depth % 2 == 1) (depth == md)
      (fun s1 ab1 => ab_apply md fuel s1 (depth + 1) ab1) depth
      (if depth < md then sort_nodes (depth % 2 == 1) nodes else nodes)
      ⟨ab.1, ab.2, none⟩ none with _ | p
  · rw [hloop] at h
    cases h
  rw [hloop] at h
  simp only [Option.bind_eq_bind, Option.some_bind] at h
  rcases hbest : p.2 with _ | mv
  · rw [hbest] at h
    cases h
  rw [hbest] at h
  rcases hopt : p.1.optimal with _ | opt
  · rw [hopt] at h
    cases h
  rw [hopt] at h
  simp only [Option.some_bind] at h
  injection h with h
  rw [Prod.mk.injEq] at h
  rcases mapM_mem _ _ _ hnodes with ⟨hlen, hmem⟩
  have hP := ab_loop_optimal_pred (depth % 2 == 1) (depth == md)
    (fun s1 ab1 => ab_apply md fuel s1 (depth + 1) ab1) depth
    (fun q => depth < q.depth ∧ q.depth ≤ md)
    (fun hfr s1 ab1 mr hmr => by
      have hrd := ab_apply_rating_depth md fuel s1 (depth + 1) ab1 mr.1 mr.2 (by omega)
        (by rw [← hmr])
      exact ⟨by omega, hrd.2⟩)
    (if depth < md then sort_nodes (depth % 2 == 1) nodes else nodes)
    ⟨ab.1, ab.2, none⟩ none p.1 p.2
    (fun n hn hb q => by
      exfalso
      have hfrf : (depth == md) = false := by
        simp only [beq_eq_false_iff_ne, ne_eq]
        omega
      rw [hfrf, Bool.or_false] at hb
      have hnn : n ∈ nodes := by
        by_cases hd : depth < md
        · rw [if_pos hd] at hn
          exact mem_sort_nodes _ _ _ hn
        · rw [if_neg hd] at hn
          exact hn
      rcases hmem n hnn with ⟨mv0, hmv0, hfn⟩
      rcases Option.map_eq_some'.mp hfn with ⟨p0, hp0, hpn⟩
      have htar : n.target = p0.1 := by rw [← hpn]
      have hlv := hchild mv0 p0.1 p0.2 hmv0 hp0
      unfold Node.is_leaf at hb
      rw [htar, hlv] at hb
      simp at hb)
    (fun r hr => by cases hr)
    (by rw [hloop])
    opt hopt
  rw [← h.2]
  exact hP

/-- A near-empty test position: two colours, GREEN on the TOP-LEFT corner,
BLUE in the centre, BLUE to move. -/
def c3_board : Board := fun t =>
  if t = ((0, 0) : Slot) then some Colour.green
  else if t = ((3, 3) : Slot) then some Colour.blue
  else none

def c3_state : GameState := ⟨[Colour.blue, Colour.green], c3_board, 5, none⟩

theorem c3_board_wf : ∀ t c, c3_board t = some c → c ∈ [Colour.blue, Colour.green] := by
  intro t c htc
  unfold c3_board at htc
  by_cases h0 : t = ((0, 0) : Slot)
  · rw [if_pos h0] at htc
    injection htc with htc
    rw [← htc]
    decide
  · rw [if_neg h0] at htc
    by_cases h3 : t = ((3, 3) : Slot)
    · rw [if_pos h3] at htc
      injection htc with htc
      rw [← htc]
      decide
    · rw [if_neg h3] at htc
      cases htc

theorem c3_good : good_state c3_state :=
  ⟨by decide, by decide, c3_board_wf, fun _ => by decide⟩

theorem c3_children_live : ∀ mv s1 evs1,
    mv ∈ detect_all_possible_moves c3_state.board →
    apply_move c3_state mv = some (s1, evs1) → s1.game_over_condition = none := by
  intro mv s1 evs1 hmv happ
  have hp : mv.position < 7 := (mem_detect_imp_legal c3_state.board mv hmv).1
  exact apply_move_live_of_few c3_state mv s1 evs1 happ hp rfl (by decide) c3_board_wf
    (by decide)

/-- On the two-marble test position the ROOKIE search (max_depth = 2)
returns a move whose rating was determined at depth 2: the search was not
capped at depth 1. -/
theorem c3_search_fact : ∃ mv r,
    select_move_search SkillLevel.rookie c3_state = some (mv, r) ∧ r.depth = 2 := by
  have hex : (ab_apply 2 2 c3_state 1 (XQ.neg_inf, XQ.pos_inf)).isSome = true :=
    ab_apply_succeeds 2 2 c3_state 1 (.neg_inf, .pos_inf) (by omega) (by omega) c3_good rfl
  rcases hmr : ab_apply 2 2 c3_state 1 (XQ.neg_inf, XQ.pos_inf) with _ | mr
  · rw [hmr] at hex
    cases hex
  have hdep := ab_apply_depth_exact 2 2 c3_state 1 (XQ.neg_inf, XQ.pos_inf) mr.1 mr.2
    (by omega) c3_children_live (by rw [hmr])
  obtain ⟨hd1, hd2⟩ := hdep
  refine ⟨mr.1, mr.2, ?_, by omega⟩
  show ab_apply 2 2 c3_state 1 (XQ.neg_inf, XQ.pos_inf) = some (mr.1, mr.2)
  rw [hmr]

/-- C3 counterexample: the claimed cap of the effective search depth at 1
for states with fewer than 6 occupied slots does not exist in the code. On
a live two-marble position (2 < 6 occupied slots) the ROOKIE search still
searches to its full max_depth: it returns a rating determined at depth 2,
not 1. -/
theorem search_depth_cap_counterexample :
    count_occupied_slots c3_state.board < 6 ∧
      ∃ mv r, select_move_search SkillLevel.rookie c3_state = some (mv, r) ∧
        r.depth = 2 :=
  ⟨by decide, c3_search_fact⟩

/-- C3 (amended): the AI's maximum search depth is D = 2 + skill-level
ordinal, i.e. 2 for ROOKIE, 3 for ADVANCED, 4 for EXPERT, 5 for
GRANDMASTER; there is no additional occupancy-based cap: even on a board
with fewer than 6 occupied slots the search runs to max_depth (on the
two-marble test position the ROOKIE search returns a depth-2 rating). -/
theorem max_depth_table_no_low_occupancy_cap :
    (∀ skill, max_depth_of skill = 2 + skill.value) ∧
      max_depth_of SkillLevel.rookie = 2 ∧ max_depth_of SkillLevel.advanced = 3 ∧
      max_depth_of SkillLevel.expert = 4 ∧ max_depth_of SkillLevel.grandmaster = 5 ∧
      count_occupied_slots c3_state.board < 6 ∧
      (∃ mv r, select_move_search SkillLevel.rookie c3_state = some (mv, r) ∧
        r.depth = 2) :=
  ⟨fun _ => rfl, rfl, rfl, rfl, rfl, by decide, c3_search_fact⟩

/-! ### Pruned search vs unpruned minimax (C4)

The reference model below is built from the specification's words, not from
the source: a full minimax search to the same depth, with the same
leaf/frontier evaluation and the same tie-break (check_optimal), but with
no alpha-beta pruning and no pre-sorting of the children. -/

/-- Spec-side node loop: like ab_loop but never breaks out of the loop
(no pruning). -/
def unpruned_minimax_loop (is_maximizing is_frontier : Bool)
    (recur : GameState → Option (Move × Rating)) (depth : Nat) :
    List Node → StratState → Option Move → Option (StratState × Option Move)
  | [], st, best => some (st, best)
  | node :: rest, st, best =>
    match (if node.is_leaf || is_frontier then
        some (⟨evaluate is_maximizing node, depth⟩ : Rating)
      else (recur node.target).map (·.2)) with
    | none => none
    | some current_rating =>
      match check_optimal is_maximizing st current_rating with
      | (st1, took) =>
        let best1 := if took then some node.move else best
        unpruned_minimax_loop is_maximizing is_frontier recur depth rest st1 best1

/-- Spec-side recursive search: like ab_apply but the children are visited
in detection order (no pre-sort) and no window is threaded (check_optimal
still updates the inert bounds, which nothing reads). -/
def unpruned_minimax_apply (max_depth : Nat) :
    Nat → GameState → Nat → Option (Move × Rating)
  | 0, _, _ => none
  | fuel + 1, s, depth => do
    let is_maximizing := depth % 2 == 1
    let nodes ← (detect_all_possible_moves s.board).mapM (fun m =>
      (apply_move s m).map (fun p => Node.mk m p.1))
    let (st, best) ← unpruned_minimax_loop is_maximizing (depth == max_depth)
      (fun s1 => unpruned_minimax_apply max_depth fuel s1 (depth + 1))
      depth nodes ⟨XQ.neg_inf, XQ.pos_inf, none⟩ none
    let m ← best
    let opt ← st.optimal
    pure (m, opt)

/-- Spec-side analogue of select_move_search. -/
def unpruned_minimax_select (skill : SkillLevel) (s : GameState) :
    Option (Move × Rating) :=
  unpruned_minimax_apply (max_depth_of skill) (max_depth_of skill) s 1

/-- A 47-marble test position on which the two searches disagree: only the
slots (2, 3) and (4, 3) are empty; outside them the colours follow a
period-4 stripe pattern (no five consecutive equal colours in any
direction). BLUE to move. -/
def c4_board : Board := fun t =>
  if t.2 == 3 && (t.1 == 2 || t.1 == 4) then none
  else if (t.1 + 2 * t.2) % 4 < 2 then some Colour.green else some Colour.blue

def c4_state : GameState := ⟨[Colour.blue, Colour.green], c4_board, 5, none⟩

set_option maxHeartbeats 0 in
theorem c4_pruned_result : select_move_search SkillLevel.rookie c4_state =
    some (⟨Side.left, 3⟩, ⟨0, 2⟩) := by decide

set_option maxHeartbeats 0 in
theorem c4_unpruned_result : unpruned_minimax_select SkillLevel.rookie c4_state =
    some (⟨Side.top, 2⟩, ⟨0, 2⟩) := by decide

/-- C4 counterexample: a 2-colour game state with more than one occupied
slot on which the alpha-beta pruned search and the unpruned full minimax
search (same depth, same leaf/frontier evaluation, same tie-break) choose
different moves: the pruned search returns (LEFT, 3), the unpruned search
returns (TOP, 2); both rate their move 0 at depth 2. -/
theorem pruning_changes_chosen_move_counterexample :
    c4_state.colours.length = 2 ∧ 1 < count_occupied_slots c4_state.board ∧
      select_move_search SkillLevel.rookie c4_state =
        some (⟨Side.left, 3⟩, ⟨0, 2⟩) ∧
      unpruned_minimax_select SkillLevel.rookie c4_state =
        some (⟨Side.top, 2⟩, ⟨0, 2⟩) ∧
      (select_move_search SkillLevel.rookie c4_state).map (·.1) ≠
        (unpruned_minimax_select SkillLevel.rookie c4_state).map (·.1) :=
  ⟨by decide, by decide, c4_pruned_result, c4_unpruned_result, by
    rw [c4_pruned_result, c4_unpruned_result]
    decide⟩

/-- C4 (amended): pruning and pre-sorting do not preserve the chosen move;
on the 47-marble test position the two searches agree on the chosen rating
(value 0 at depth 2) but pick different moves. -/
theorem pruned_search_rating_agrees_move_differs :
    (select_move_search SkillLevel.rookie c4_state).map (·.2) =
      (unpruned_minimax_select SkillLevel.rookie c4_state).map (·.2) ∧
    (select_move_search SkillLevel.rookie c4_state).map (·.1) ≠
      (unpruned_minimax_select SkillLevel.rookie c4_state).map (·.1) :=
  ⟨by rw [c4_pruned_result, c4_unpruned_result]; rfl, by
    rw [c4_pruned_result, c4_unpruned_result]
    decide⟩

end Shiftago

